import Mathlib

/-!
# Verification of the queue/stack/brute-force teaching repository

Shallow embedding of the repository's three scripts:

* `multiprocess_queue.py` — the `Combinations` candidate generator, the
  `Job` evaluator, the `chunk_indices` partitioner, the coordinator's job
  creation, and the worker/poison-pill message-passing system;
* `queues.py` — the `Queue`/`Stack` wrappers over a double-ended sequence.

Python integers are modelled as `Nat`/`Int`; Python floor division `//` and
modulo `%` on `int` are `Int.fdiv`/`Int.fmod` (which agree with Python for
every sign of the operands).  Fallible operations return `Except PyErr` or
`Option`.  The external MD5 hash is a black box and is taken as an explicit
function parameter `md5hex`; strings are `List Char` (the UTF-8
encode/decode round trip in the source is the identity on the abstract
string).  `round(length / num_chunks)` in `chunk_indices` is modelled
faithfully: CPython divides the integers as an IEEE-754 double (correctly
rounded, ties to even, `OverflowError` past `2 ^ 1024`) and then rounds
that double half to even; `pyRoundDiv` reproduces this exactly over `Nat`.
The exact-rational reference `roundHalfEven` agrees with it only while
the dividend stays below `2 ^ 52`, which bounds the domain of the
partitioner's correctness theorems.
-/

/-- Python exceptions that the embedded code can raise. -/
inductive PyErr where
  | indexError
  | zeroDivisionError
  | overflowError
deriving DecidableEq, Repr

deriving instance DecidableEq for Except

/-- `Combinations(alphabet, length)` from `multiprocess_queue.py`:
a lazily indexed space of the `len(alphabet) ** length` strings of the
given length over the alphabet. -/
structure Combinations where
  alphabet : List Char
  length : Nat
deriving DecidableEq, Repr

namespace Combinations

/-- `Combinations.__len__`: `len(self.alphabet) ** self.length`. -/
def size (c : Combinations) : Nat :=
  c.alphabet.length ^ c.length

/-- One character of `Combinations.__getitem__`'s generator expression:
`self.alphabet[(index // len(self.alphabet) ** i) % len(self.alphabet)]`.
The list access is total here (`getD` with a junk default); whenever the
alphabet is nonempty the computed position is provably in range. -/
def digitChar (alphabet : List Char) (index : Int) (i : Nat) : Char :=
  alphabet.getD
    ((Int.fdiv index ((alphabet.length : Int) ^ i)).fmod (alphabet.length : Int)).toNat
    ' '

/-- `Combinations.__getitem__`.  Raises `IndexError` when
`index >= len(self)`; when the alphabet is empty and the length is
positive, the first generator step divides by `len(self.alphabet) == 0`,
raising `ZeroDivisionError`; otherwise it returns the join of the
characters for `i in reversed(range(self.length))`. -/
def getitem (c : Combinations) (index : Int) : Except PyErr (List Char) :=
  if (c.size : Int) ≤ index then .error .indexError
  else if c.alphabet.length = 0 ∧ c.length ≠ 0 then .error .zeroDivisionError
  else .ok (((List.range c.length).reverse).map (digitChar c.alphabet index))

/-- The pure value of `__getitem__` at a natural index: the same digit
formula, written with `Nat` division and modulo. -/
def combString (c : Combinations) (i : Nat) : List Char :=
  ((List.range c.length).reverse).map
    (fun m => c.alphabet.getD (i / c.alphabet.length ^ m % c.alphabet.length) ' ')

end Combinations

/-- The `Job` dataclass: an immutable descriptor of a candidate range. -/
structure Job where
  combinations : Combinations
  start_index : Nat
  stop_index : Nat
deriving DecidableEq, Repr

namespace Job

/-- The loop body of `Job.__call__` over an explicit list of indices.
For each index: compute the candidate (an `IndexError` from
`Combinations.__getitem__` propagates), hash it, compare with the target;
on a match return the decoded candidate, otherwise continue; falling off
the end returns `None`. -/
def callAux (md5hex : List Char → List Char) (hash_value : List Char)
    (c : Combinations) : List Nat → Except PyErr (Option (List Char))
  | [] => .ok none
  | i :: rest =>
    match c.getitem (i : Int) with
    | .error e => .error e
    | .ok s => if md5hex s = hash_value then .ok (some s)
               else callAux md5hex hash_value c rest

/-- `Job.__call__(hash_value)`: scan `range(self.start_index,
self.stop_index)`. -/
def call (j : Job) (md5hex : List Char → List Char) (hash_value : List Char) :
    Except PyErr (Option (List Char)) :=
  callAux md5hex hash_value j.combinations
    (List.range' j.start_index (j.stop_index - j.start_index))

end Job

/-- Round half to even of `a / b` for naturals (`b > 0`): exact banker's
rounding.  This is both the exact-arithmetic reference for the
partitioner and the building block of the faithful model of CPython's
float semantics in `pyRoundDiv`. -/
def roundHalfEven (a b : Nat) : Nat :=
  let q := a / b
  let r := a % b
  if 2 * r < b then q
  else if b < 2 * r then q + 1
  else if q % 2 = 0 then q else q + 1

/-- The value of CPython's `round(length / num_chunks)` on nonnegative
integers, modelled exactly.  `a / b` first converts the exact quotient
`x = a / b` to an IEEE-754 double: with `e = Nat.log2 (a / b)` (the
binade exponent of `x` when `x ≥ 1`), the doubles around `x` are the
multiples of `2 ^ (e - 52)`, and the conversion picks the nearest one,
ties to the even multiple; CPython raises `ZeroDivisionError` when
`b = 0` and `OverflowError` when the converted value would reach
`2 ^ 1024`.  `round` then rounds the double half to even.  For `e ≥ 52`
the double is already an integer and `round` returns it; for `e < 52`
the double is `M / 2 ^ (52 - e)` with `M` the nearest-even integer to
`x * 2 ^ (52 - e)`, and `round` is exact half-even rounding of that
dyadic rational.  `chunk_indices` divides only after clamping the chunk
count to the remaining length, so every reachable call has `b ≤ a`
(quotient at least 1); the `a < b` case is unreachable from this program
and is given the exact rounding. -/
def pyRoundDiv (a b : Nat) : Except PyErr Nat :=
  if b = 0 then .error .zeroDivisionError
  else if a < b then .ok (roundHalfEven a b)
  else
    let e := Nat.log2 (a / b)
    if 52 ≤ e then
      let v := roundHalfEven a (b * 2 ^ (e - 52)) * 2 ^ (e - 52)
      if 2 ^ 1024 ≤ v then .error .overflowError else .ok v
    else
      .ok (roundHalfEven (roundHalfEven (a * 2 ^ (52 - e)) b) (2 ^ (52 - e)))

/-- The loop of `chunk_indices`, with the running `start` made explicit,
under the faithful float semantics of `pyRoundDiv`.  Each iteration
clamps `num_chunks` to `min num_chunks length`;
`round(length / num_chunks)` then either raises (`round(0 / 0)` when the
remaining length is zero, or `OverflowError` for astronomically large
lengths) or yields `(start, start + chunk_size)`.  Python's
`length -= chunk_size` can drop below zero only on the final chunk (a
rounded chunk exceeds the remaining length only when the final
non-representable remainder rounds up; with two or more chunks remaining
the chunk is about half the remainder), and then the loop exits without
reading `length` again, so the `Nat` truncation below yields the same
pairs. -/
def chunkIndicesAux (start length num_chunks : Nat) :
    Except PyErr (List (Nat × Nat)) :=
  if num_chunks = 0 then .ok []
  else
    let nc := min num_chunks length
    match pyRoundDiv length nc with
    | .error e => .error e
    | .ok chunk_size =>
      match chunkIndicesAux (start + chunk_size) (length - chunk_size) (nc - 1) with
      | .ok rest => .ok ((start, start + chunk_size) :: rest)
      | .error e => .error e
termination_by num_chunks
decreasing_by omega

/-- `chunk_indices(length, num_chunks)`, fully materialized. -/
def chunkIndices (length num_chunks : Nat) : Except PyErr (List (Nat × Nat)) :=
  chunkIndicesAux 0 length num_chunks

/-- Reference model of the `chunk_indices` loop with exact rational
rounding in place of the float rounding; proved below to agree with the
faithful `chunkIndicesAux` whenever the remaining length stays below
`2 ^ 52`, where the double arithmetic in `pyRoundDiv` is exact. -/
def chunkIndicesExactAux (start length num_chunks : Nat) :
    Option (List (Nat × Nat)) :=
  if num_chunks = 0 then some []
  else
    let nc := min num_chunks length
    if nc = 0 then none
    else
      let chunk_size := roundHalfEven length nc
      match chunkIndicesExactAux (start + chunk_size) (length - chunk_size) (nc - 1) with
      | some rest => some ((start, start + chunk_size) :: rest)
      | none => none
termination_by num_chunks
decreasing_by omega

/-- `string.ascii_lowercase`. -/
def asciiLowercase : List Char :=
  ['a', 'b', 'c', 'd', 'e', 'f', 'g', 'h', 'i', 'j', 'k', 'l', 'm',
   'n', 'o', 'p', 'q', 'r', 's', 't', 'u', 'v', 'w', 'x', 'y', 'z']

/-- The jobs `main` enqueues for one text length: one per pair yielded by
`chunk_indices(len(combinations), len(workers))`.  (`len()` is modelled
as the language-level value of `__len__`; CPython's `len()` builtin
additionally raises `OverflowError` once `__len__` exceeds `2 ^ 63 - 1`
on 64-bit builds, which is reached at `text_length = 14` — a further
divergence accounted for in the correction of the coordinator-safety
claim.) -/
def jobsForLength (text_length num_workers : Nat) : Except PyErr (List Job) :=
  (chunkIndices (Combinations.mk asciiLowercase text_length).size num_workers).map
    (fun ps => ps.map (fun p => Job.mk ⟨asciiLowercase, text_length⟩ p.1 p.2))

/-- Folds `jobsForLength` over a list of text lengths, in order (an
exception from any length propagates). -/
def mainJobsAux (num_workers : Nat) : List Nat → Except PyErr (List Job)
  | [] => .ok []
  | tl :: rest =>
    match jobsForLength tl num_workers, mainJobsAux num_workers rest with
    | .ok a, .ok b => .ok (a ++ b)
    | .error e, _ => .error e
    | _, .error e => .error e

/-- All jobs `main` enqueues before the poison pill: for
`text_length in range(1, max_length + 1)`, one job per chunk. -/
def mainJobs (max_length num_workers : Nat) : Except PyErr (List Job) :=
  mainJobsAux num_workers (List.range' 1 max_length)

/-- An item on the input channel: `POISON_PILL` (the `None` sentinel) or a
`Job`. -/
inductive Item where
  | pill
  | job (j : Job)
deriving DecidableEq, Repr

/-- Whether a worker process is still alive. -/
inductive WStatus where
  | running
  | stopped
deriving DecidableEq, Repr

/-- The shared state of the message-passing system: the FIFO input
channel, the output channel, and the status of each worker. -/
structure SysState where
  queue_in : List Item
  queue_out : List (List Char)
  workers : List WStatus
deriving DecidableEq, Repr

/-- Python truthiness of `Job.__call__`'s result: `None` and the empty
string are falsy, a nonempty string is truthy. -/
def truthy : Option (List Char) → Bool
  | some (_ :: _) => true
  | _ => false

/-- One iteration of `Worker.run` by worker `w` (`None` when `w` is not a
running worker, or when `queue_in.get()` blocks on an empty channel):
dequeue the head item; on the poison pill, re-enqueue the pill and stop;
on a job, evaluate it — an uncaught exception kills the process, a truthy
plaintext is published to the output channel before stopping, and
otherwise the worker loops for the next job. -/
def workerStep (md5hex : List Char → List Char) (hash_value : List Char)
    (s : SysState) (w : Nat) : Option SysState :=
  if s.workers.getD w .stopped = .running then
    match s.queue_in with
    | [] => none
    | .pill :: rest =>
      some ⟨rest ++ [.pill], s.queue_out, s.workers.set w .stopped⟩
    | .job j :: rest =>
      match j.call md5hex hash_value with
      | .error _ => some ⟨rest, s.queue_out, s.workers.set w .stopped⟩
      | .ok r =>
        if truthy r then
          some ⟨rest, s.queue_out ++ [r.getD []], s.workers.set w .stopped⟩
        else
          some ⟨rest, s.queue_out, s.workers⟩
  else none

/-- The system takes a step when some worker takes one. -/
def SysStep (md5hex : List Char → List Char) (hash_value : List Char)
    (s s' : SysState) : Prop :=
  ∃ w, workerStep md5hex hash_value s w = some s'

/-- The poison pill is somewhere on the input channel. -/
def PillIn (s : SysState) : Prop :=
  Item.pill ∈ s.queue_in

/-- Number of jobs ahead of the first poison pill on the channel. -/
def jobsBeforePill : List Item → Nat
  | [] => 0
  | .pill :: _ => 0
  | .job _ :: rest => 1 + jobsBeforePill rest

/-- Number of workers still running. -/
def numRunning : List WStatus → Nat
  | [] => 0
  | .running :: ws => numRunning ws + 1
  | .stopped :: ws => numRunning ws

/-- Termination measure for the worker system. -/
def sysMeasure (s : SysState) : Nat :=
  numRunning s.workers * (s.queue_in.length + 1) + jobsBeforePill s.queue_in

/-- `queues.py`'s `Queue`: a wrapper around `collections.deque`, kept here
as a list whose head is the front of the deque. -/
structure Queue (α : Type u) where
  elements : List α
deriving DecidableEq, Repr

/-- `Stack` extends `Queue` by inheritance, overriding only `dequeue`;
the representation and `enqueue` are shared. -/
abbrev Stack (α : Type u) := Queue α

namespace Queue

/-- `Queue(*elements)`: initialize the deque with the given elements. -/
def init (xs : List α) : Queue α := ⟨xs⟩

/-- `Queue.__len__`. -/
def len (q : Queue α) : Nat := q.elements.length

/-- `Queue.enqueue`: `deque.append`, at the back. -/
def enqueue (q : Queue α) (x : α) : Queue α := ⟨q.elements ++ [x]⟩

/-- Enqueue a sequence of elements in order. -/
def enqueueAll (q : Queue α) (xs : List α) : Queue α :=
  xs.foldl enqueue q

/-- `Queue.dequeue`: `deque.popleft`, from the front (`IndexError`, i.e.
`none`, on an empty deque). -/
def dequeue (q : Queue α) : Option (α × Queue α) :=
  match q.elements with
  | [] => none
  | x :: rest => some (x, ⟨rest⟩)

/-- The loop of `Queue.__iter__` on the underlying deque: each round
removes the front element and yields it. -/
def iterListAux : List α → List α × Queue α
  | [] => ([], ⟨[]⟩)
  | x :: rest =>
    let p := iterListAux rest
    (x :: p.1, p.2)

/-- `Queue.__iter__`, run to completion: `while len(self) > 0: yield
self.dequeue()`.  Returns the yielded elements and the container as the
iteration leaves it. -/
def iterList (q : Queue α) : List α × Queue α :=
  iterListAux q.elements

end Queue

namespace Stack

/-- `Stack.dequeue`: the override calling `deque.pop`, from the back. -/
def dequeue (s : Stack α) : Option (α × Stack α) :=
  match s.elements.getLast? with
  | none => none
  | some x => some (x, ⟨s.elements.dropLast⟩)

/-- The loop of the inherited `__iter__` with the overridden `dequeue`
(dynamic dispatch): each round removes the back element and yields it.
The first argument is the length of the deque, which bounds the number of
rounds exactly (each round shortens the deque by one). -/
def iterListAux : Nat → List α → List α × Stack α
  | 0, l => ([], ⟨l⟩)
  | n + 1, l =>
    match l.getLast? with
    | none => ([], ⟨l⟩)
    | some x =>
      let p := iterListAux n l.dropLast
      (x :: p.1, p.2)

/-- `Stack` iteration, run to completion: yields from the back until
empty. -/
def iterList (s : Stack α) : List α × Stack α :=
  iterListAux s.elements.length s.elements

end Stack

/-! ## Arithmetic of the mixed-radix digit formula -/

/-- Python's `(index // k ** m) % k` at a natural index agrees with `Nat`
division and modulo. -/
theorem natDigit_cast (i k m : Nat) :
    (Int.fdiv (i : Int) ((k : Int) ^ m)).fmod (k : Int)
      = ((i / k ^ m % k : Nat) : Int) := by
  have hk : ((k : Int) ^ m) = ((k ^ m : Nat) : Int) := by push_cast; ring
  rw [hk, Int.fdiv_eq_ediv _ (by positivity), ← Int.ofNat_ediv, Int.ofNat_fmod]

/-- `digitChar` at a natural index, in `Nat` arithmetic. -/
theorem digitChar_nat (A : List Char) (i m : Nat) :
    Combinations.digitChar A (i : Int) m
      = A.getD (i / A.length ^ m % A.length) ' ' := by
  unfold Combinations.digitChar
  rw [natDigit_cast, Int.toNat_natCast]

/-- `__getitem__` succeeds at every in-range natural index and returns the
digit-formula string. -/
theorem getitem_nat_ok (c : Combinations) (i : Nat) (h : i < c.size) :
    c.getitem (i : Int) = .ok (c.combString i) := by
  unfold Combinations.getitem Combinations.combString
  rw [if_neg, if_neg]
  · have he : Combinations.digitChar c.alphabet (i : Int)
        = fun m => c.alphabet.getD (i / c.alphabet.length ^ m % c.alphabet.length) ' ' :=
      funext (digitChar_nat c.alphabet i)
    rw [he]
  · rintro ⟨h0, hL⟩
    rw [Combinations.size, h0, Nat.zero_pow (by omega)] at h
    omega
  · push_neg
    exact_mod_cast h

/-- Two numbers below `k ^ L` with the same `L` base-`k` digits are
equal. -/
theorem digits_inj (k : Nat) :
    ∀ L i j : Nat, i < k ^ L → j < k ^ L →
      (∀ m, m < L → i / k ^ m % k = j / k ^ m % k) → i = j := by
  intro L
  induction L with
  | zero =>
    intro i j hi hj _
    simp only [pow_zero, Nat.lt_one_iff] at hi hj
    omega
  | succ L ih =>
    intro i j hi hj hd
    have hk : 0 < k := by
      rcases Nat.eq_zero_or_pos k with h0 | h0
      · rw [h0] at hi; simp [Nat.zero_pow] at hi
      · exact h0
    have h0 : i % k = j % k := by simpa using hd 0 (by omega)
    have hi' : i / k < k ^ L := by
      rw [Nat.div_lt_iff_lt_mul hk, ← pow_succ]; exact hi
    have hj' : j / k < k ^ L := by
      rw [Nat.div_lt_iff_lt_mul hk, ← pow_succ]; exact hj
    have hd' : ∀ m, m < L → i / k / k ^ m % k = j / k / k ^ m % k := by
      intro m hm
      rw [Nat.div_div_eq_div_mul, Nat.div_div_eq_div_mul, ← pow_succ']
      exact hd (m + 1) (by omega)
    have hq := ih (i / k) (j / k) hi' hj' hd'
    have di := Nat.div_add_mod i k
    have dj := Nat.div_add_mod j k
    rw [hq] at di
    omega

/-- `getD` at in-range positions of a duplicate-free list is injective. -/
theorem getD_inj_of_nodup {A : List α} (hA : A.Nodup) {a b : Nat}
    (ha : a < A.length) (hb : b < A.length)
    (h : A.getD a d = A.getD b d) : a = b := by
  rw [List.getD_eq_getElem?_getD, List.getD_eq_getElem?_getD,
    List.getElem?_eq_getElem ha, List.getElem?_eq_getElem hb] at h
  simp only [Option.getD_some] at h
  exact hA.getElem_inj_iff.mp h

/-! ## C1: the candidate generator is a bijection -/

/-- C1.  For every alphabet `A` of distinct characters and every length
`L ≥ 0`, `Combinations(A, L)` is a bijection onto the fixed-length
strings: `get(i)` for `i < |A| ^ L` produces pairwise-distinct strings,
each of length `L`, each character drawn from `A`, and `get(|A| ^ L)`
fails with an `IndexError`. -/
theorem combinations_getitem_bijection (A : List Char) (L : Nat) (hA : A.Nodup) :
    (∀ i : Nat, i < (Combinations.mk A L).size →
        ∃ s, (Combinations.mk A L).getitem (i : Int) = .ok s ∧
          s.length = L ∧ ∀ ch ∈ s, ch ∈ A)
    ∧ (∀ i j : Nat, i < (Combinations.mk A L).size →
        j < (Combinations.mk A L).size →
        (Combinations.mk A L).getitem (i : Int)
          = (Combinations.mk A L).getitem (j : Int) →
        i = j)
    ∧ (Combinations.mk A L).getitem (((Combinations.mk A L).size : Nat) : Int)
        = .error .indexError := by
  refine ⟨?_, ?_, ?_⟩
  · intro i hi
    refine ⟨(Combinations.mk A L).combString i, getitem_nat_ok _ i hi, ?_, ?_⟩
    · simp [Combinations.combString]
    · intro ch hch
      simp only [Combinations.combString, List.mem_map, List.mem_reverse,
        List.mem_range] at hch
      obtain ⟨m, hm, rfl⟩ := hch
      have hk : 0 < A.length := by
        rcases Nat.eq_zero_or_pos A.length with h0 | h0
        · exfalso
          simp only [Combinations.size, h0] at hi
          rw [Nat.zero_pow (by omega)] at hi
          omega
        · exact h0
      have hd : i / A.length ^ m % A.length < A.length := Nat.mod_lt _ hk
      rw [List.getD_eq_getElem?_getD, List.getElem?_eq_getElem hd,
        Option.getD_some]
      exact List.getElem_mem hd
  · intro i j hi hj heq
    rw [getitem_nat_ok _ i hi, getitem_nat_ok _ j hj] at heq
    simp only [Except.ok.injEq] at heq
    simp only [Combinations.combString, List.map_inj_left, List.mem_reverse,
      List.mem_range] at heq
    rcases Nat.eq_zero_or_pos A.length with hk0 | hk
    · have hL : L = 0 := by
        by_contra hL0
        simp only [Combinations.size, hk0] at hi
        rw [Nat.zero_pow (by omega)] at hi
        omega
      simp only [Combinations.size, hL, pow_zero, Nat.lt_one_iff] at hi hj
      omega
    · refine digits_inj A.length L i j ?_ ?_ ?_
      · simpa [Combinations.size] using hi
      · simpa [Combinations.size] using hj
      · intro m hm
        exact getD_inj_of_nodup hA (Nat.mod_lt _ hk) (Nat.mod_lt _ hk) (heq m hm)
  · rw [Combinations.getitem, if_pos (le_refl _)]

/-- Witness for C1 at `A = ['a', 'b']`, `L = 2`. -/
theorem combinations_getitem_bijection_witness :
    List.Nodup ['a', 'b']
    ∧ ((∀ i : Nat, i < (Combinations.mk ['a', 'b'] 2).size →
          ∃ s, (Combinations.mk ['a', 'b'] 2).getitem (i : Int) = .ok s ∧
            s.length = 2 ∧ ∀ ch ∈ s, ch ∈ ['a', 'b'])
      ∧ (∀ i j : Nat, i < (Combinations.mk ['a', 'b'] 2).size →
          j < (Combinations.mk ['a', 'b'] 2).size →
          (Combinations.mk ['a', 'b'] 2).getitem (i : Int)
            = (Combinations.mk ['a', 'b'] 2).getitem (j : Int) →
          i = j)
      ∧ (Combinations.mk ['a', 'b'] 2).getitem
            (((Combinations.mk ['a', 'b'] 2).size : Nat) : Int)
          = .error .indexError) :=
  ⟨by decide, combinations_getitem_bijection ['a', 'b'] 2 (by decide)⟩

/-! ## C2: `get` is exactly mixed-radix conversion -/

/-- Modelled from the spec's words for the refinement check of C2: the
base-`k` digits of `i`, least significant first, padded/truncated to
exactly `L` digits. -/
def mixedRadixDigits (k : Nat) : Nat → Nat → List Nat
  | 0, _ => []
  | L + 1, i => i % k :: mixedRadixDigits k L (i / k)

/-- Modelled from the spec's words for the refinement check of C2: the
string obtained by writing `i` in base `|A|` with exactly `L` digits,
most significant first (the little-endian digit list reversed), each
digit mapped through the alphabet. -/
def mixedRadixString (A : List Char) (L i : Nat) : List Char :=
  ((mixedRadixDigits A.length L i).reverse).map (fun d => A.getD d ' ')

/-- The digit formula of the source enumerates exactly the little-endian
base-`k` digits. -/
theorem range_map_digits (k : Nat) :
    ∀ L i : Nat, (List.range L).map (fun m => i / k ^ m % k)
      = mixedRadixDigits k L i := by
  intro L
  induction L with
  | zero => intro i; simp [mixedRadixDigits]
  | succ L ih =>
    intro i
    rw [List.range_succ_eq_map, mixedRadixDigits]
    simp only [List.map_cons, List.map_map]
    congr 1
    · simp
    · rw [← ih (i / k)]
      apply List.map_congr_left
      intro m _
      simp only [Function.comp_apply]
      rw [Nat.div_div_eq_div_mul, ← pow_succ']

/-- C2.  For every alphabet, length and in-range index, `get(index)` is
the string obtained by writing `index` as a mixed-radix number in base
`|alphabet|` with exactly `length` digits, most significant first, each
digit mapped through the alphabet. -/
theorem combinations_getitem_mixed_radix (A : List Char) (L i : Nat)
    (h : i < (Combinations.mk A L).size) :
    (Combinations.mk A L).getitem (i : Int) = .ok (mixedRadixString A L i) := by
  rw [getitem_nat_ok _ i h]
  congr 1
  show ((List.range L).reverse).map
      (fun m => A.getD (i / A.length ^ m % A.length) ' ') = mixedRadixString A L i
  rw [List.map_reverse, mixedRadixString, List.map_reverse, ← range_map_digits,
    List.map_map]
  simp [Function.comp]

/-- Witness for C2 at `A = ['a', 'b', 'c']`, `L = 2`, `i = 5`. -/
theorem combinations_getitem_mixed_radix_witness :
    5 < (Combinations.mk ['a', 'b', 'c'] 2).size
    ∧ (Combinations.mk ['a', 'b', 'c'] 2).getitem ((5 : Nat) : Int)
        = .ok (mixedRadixString ['a', 'b', 'c'] 2 5) :=
  ⟨by decide, combinations_getitem_mixed_radix ['a', 'b', 'c'] 2 5 (by decide)⟩

/-! ## C9: negative indices -/

/-- C9 counterexample.  The claim quantifies over *every* alphabet, but
with an empty alphabet and a positive length a negative index reaches the
digit computation and divides by `len(alphabet) == 0`: the call raises
`ZeroDivisionError`, returning no string at all; moreover `index %
size()` is itself a division by zero, since `size() == 0`. -/
theorem combinations_getitem_negative_counterexample :
    (Combinations.mk [] 1).getitem (-1) = .error .zeroDivisionError
    ∧ (Combinations.mk [] 1).size = 0
    ∧ PyErr.zeroDivisionError ≠ PyErr.indexError := by
  exact ⟨by decide, by decide, by decide⟩

/-- `get(-1)` on a nonempty alphabet is the all-last-characters string. -/
theorem getitem_neg_one (A : List Char) (L : Nat) (hA : A ≠ []) :
    (Combinations.mk A L).getitem (-1)
      = .ok (List.replicate L (A.getD (A.length - 1) ' ')) := by
  have hk : 0 < A.length := List.length_pos.mpr hA
  have hS : 0 < (Combinations.mk A L).size := Nat.pos_pow_of_pos L hk
  rw [Combinations.getitem, if_neg, if_neg]
  · congr 1
    rw [List.eq_replicate_iff]
    refine ⟨by simp, ?_⟩
    intro b hb
    simp only [List.mem_map, List.mem_reverse, List.mem_range] at hb
    obtain ⟨m, _, rfl⟩ := hb
    have hp : (0 : Int) < (A.length : Int) ^ m := by positivity
    have hdiv : Int.fdiv (-1) ((A.length : Int) ^ m) = -1 := by
      rw [Int.fdiv_eq_ediv _ (le_of_lt hp)]
      exact ((@Int.ediv_emod_unique (-1) ((A.length : Int) ^ m)
        ((A.length : Int) ^ m - 1) (-1) hp).mpr ⟨by ring, by omega, by omega⟩).1
    have hmod : Int.fmod (-1) ((A.length : Int)) = (A.length : Int) - 1 := by
      have hk' : (0 : Int) < (A.length : Int) := by exact_mod_cast hk
      rw [Int.fmod_eq_emod _ (le_of_lt hk')]
      exact ((@Int.ediv_emod_unique (-1) ((A.length : Int))
        ((A.length : Int) - 1) (-1) hk').mpr ⟨by ring, by omega, by omega⟩).2
    rw [Combinations.digitChar, hdiv, hmod]
    congr 1
    omega
  · rintro ⟨h0, -⟩
    rw [List.length_eq_zero] at h0
    exact hA h0
  · push_neg
    have : (0 : Int) < ((Combinations.mk A L).size : Int) := by exact_mod_cast hS
    omega

/-- C9 (amended: the alphabet must be nonempty).  For every nonempty
alphabet, every length and every negative index, `__getitem__` does not
raise: it returns the string at `index mod size()` under Python's
floor-division arithmetic, an index that lies in `[0, size())`; in
particular `get(-1)` is the string of all last-alphabet characters. -/
theorem combinations_getitem_negative (A : List Char) (L : Nat) (i : Int)
    (hneg : i < 0) (hA : A ≠ []) :
    ∃ s, (Combinations.mk A L).getitem i = .ok s
      ∧ (Combinations.mk A L).getitem
          (Int.fmod i (((Combinations.mk A L).size : Nat) : Int)) = .ok s
      ∧ 0 ≤ Int.fmod i (((Combinations.mk A L).size : Nat) : Int)
      ∧ Int.fmod i (((Combinations.mk A L).size : Nat) : Int)
          < (((Combinations.mk A L).size : Nat) : Int)
      ∧ (Combinations.mk A L).getitem (-1)
          = .ok (List.replicate L (A.getD (A.length - 1) ' ')) := by
  have hk : 0 < A.length := List.length_pos.mpr hA
  have hS : 0 < (Combinations.mk A L).size := Nat.pos_pow_of_pos L hk
  have hS' : (0 : Int) < ((Combinations.mk A L).size : Int) := by exact_mod_cast hS
  have hj0 : 0 ≤ Int.fmod i (((Combinations.mk A L).size : Nat) : Int) :=
    Int.fmod_nonneg' i hS'
  have hjlt : Int.fmod i (((Combinations.mk A L).size : Nat) : Int)
      < (((Combinations.mk A L).size : Nat) : Int) :=
    Int.fmod_lt_of_pos i hS'
  have hjcast : (((Int.fmod i (((Combinations.mk A L).size : Nat) : Int)).toNat : Nat) : Int)
      = Int.fmod i (((Combinations.mk A L).size : Nat) : Int) :=
    Int.toNat_of_nonneg hj0
  set j : Nat := (Int.fmod i (((Combinations.mk A L).size : Nat) : Int)).toNat with hjdef
  have hjS : j < (Combinations.mk A L).size := by omega
  have hdig : ∀ m, m < L →
      Combinations.digitChar A i m = Combinations.digitChar A ((j : Nat) : Int) m := by
    intro m hm
    rw [Combinations.digitChar, Combinations.digitChar]
    have hp : (0 : Int) < (A.length : Int) ^ m := by positivity
    have hk' : (0 : Int) ≤ (A.length : Int) := by exact_mod_cast Nat.zero_le _
    rw [Int.fdiv_eq_ediv _ (le_of_lt hp), Int.fdiv_eq_ediv _ (le_of_lt hp),
      Int.fmod_eq_emod _ hk', Int.fmod_eq_emod _ hk']
    have hid : i = ((j : Nat) : Int)
        + (((Combinations.mk A L).size : Nat) : Int)
          * Int.fdiv i (((Combinations.mk A L).size : Nat) : Int) := by
      have hfd := Int.fmod_add_fdiv i (((Combinations.mk A L).size : Nat) : Int)
      omega
    have hSdecomp : (((Combinations.mk A L).size : Nat) : Int)
        = (A.length : Int) ^ m * (A.length : Int) ^ (L - m) := by
      show ((A.length ^ L : Nat) : Int) = _
      push_cast
      rw [← pow_add]
      congr 1
      omega
    rw [hid]
    nth_rewrite 1 [hSdecomp]
    rw [mul_assoc, Int.add_mul_ediv_left _ _ (ne_of_gt hp)]
    have hsplit : (A.length : Int) ^ (L - m)
          * Int.fdiv i (((Combinations.mk A L).size : Nat) : Int)
        = (A.length : Int)
          * ((A.length : Int) ^ (L - m - 1)
              * Int.fdiv i (((Combinations.mk A L).size : Nat) : Int)) := by
      rw [← mul_assoc, ← pow_succ']
      congr 2
      omega
    rw [hsplit, Int.add_mul_emod_self_left]
  refine ⟨(Combinations.mk A L).combString j, ?_, ?_, hj0, hjlt,
    getitem_neg_one A L hA⟩
  · rw [Combinations.getitem, if_neg, if_neg]
    · congr 1
      rw [Combinations.combString]
      apply List.map_congr_left
      intro m hm
      simp only [List.mem_reverse, List.mem_range] at hm
      rw [hdig m hm, digitChar_nat]
    · rintro ⟨h0, -⟩
      rw [List.length_eq_zero] at h0
      exact hA h0
    · omega
  · rw [← hjcast]
    exact getitem_nat_ok _ j hjS

/-- Witness for C9 (amended) at `A = ['a', 'b']`, `L = 2`, `i = -3`. -/
theorem combinations_getitem_negative_witness :
    ((-3 : Int) < 0 ∧ (['a', 'b'] : List Char) ≠ [])
    ∧ ∃ s, (Combinations.mk ['a', 'b'] 2).getitem (-3) = .ok s
      ∧ (Combinations.mk ['a', 'b'] 2).getitem
          (Int.fmod (-3) (((Combinations.mk ['a', 'b'] 2).size : Nat) : Int)) = .ok s
      ∧ 0 ≤ Int.fmod (-3) (((Combinations.mk ['a', 'b'] 2).size : Nat) : Int)
      ∧ Int.fmod (-3) (((Combinations.mk ['a', 'b'] 2).size : Nat) : Int)
          < (((Combinations.mk ['a', 'b'] 2).size : Nat) : Int)
      ∧ (Combinations.mk ['a', 'b'] 2).getitem (-1)
          = .ok (List.replicate 2 ((['a', 'b'] : List Char).getD
              ((['a', 'b'] : List Char).length - 1) ' ')) :=
  ⟨⟨by decide, by decide⟩,
    combinations_getitem_negative ['a', 'b'] 2 (-3) (by decide) (by decide)⟩

/-! ## C3/C4: the work partitioner -/

/-- Unfolding `chunk_indices` when no chunks are requested. -/
theorem chunkIndicesExactAux_zero (start length : Nat) :
    chunkIndicesExactAux start length 0 = some [] := by
  rw [chunkIndicesExactAux]
  simp

/-- Unfolding `chunk_indices` at the `round(0 / 0)` error state. -/
theorem chunkIndicesExactAux_len_zero (start num_chunks : Nat) (h : num_chunks ≠ 0) :
    chunkIndicesExactAux start 0 num_chunks = none := by
  rw [chunkIndicesExactAux]
  simp [h]

/-- Unfolding one productive iteration of `chunk_indices`. -/
theorem chunkIndicesExactAux_step (start length num_chunks : Nat)
    (h : num_chunks ≠ 0) (hl : length ≠ 0) :
    chunkIndicesExactAux start length num_chunks =
      match chunkIndicesExactAux (start + roundHalfEven length (min num_chunks length))
          (length - roundHalfEven length (min num_chunks length))
          (min num_chunks length - 1) with
      | some rest =>
          some ((start, start + roundHalfEven length (min num_chunks length)) :: rest)
      | none => none := by
  rw [chunkIndicesExactAux]
  have hmin : min num_chunks length ≠ 0 := by omega
  simp [h, hmin]

/-- `roundHalfEven` with its `let` bindings expanded. -/
theorem roundHalfEven_eq (a b : Nat) :
    roundHalfEven a b =
      if 2 * (a % b) < b then a / b
      else if b < 2 * (a % b) then a / b + 1
      else if (a / b) % 2 = 0 then a / b else a / b + 1 := rfl

/-- Rounding a whole number divided by one gives it back. -/
theorem roundHalfEven_one (a : Nat) : roundHalfEven a 1 = a := by
  rw [roundHalfEven_eq]
  simp [Nat.mod_one, Nat.div_one]

/-- The chunk is positive whenever the chunk count is at most the
remaining length. -/
theorem roundHalfEven_pos (a b : Nat) (hb : 0 < b) (hba : b ≤ a) :
    0 < roundHalfEven a b := by
  have hq1 : 1 ≤ a / b := (Nat.one_le_div_iff hb).mpr hba
  rw [roundHalfEven_eq]
  split_ifs <;> omega

/-- After removing one chunk at least `b - 1` items remain: the chunk is
at most `a - b + 1`. -/
theorem roundHalfEven_chunks_bound (a b : Nat) (h2 : 2 ≤ b) (hba : b ≤ a) :
    b - 1 ≤ a - roundHalfEven a b := by
  have hdm := Nat.div_add_mod a b
  have hmlt : a % b < b := Nat.mod_lt _ (by omega)
  have hq1 : 1 ≤ a / b := (Nat.one_le_div_iff (by omega)).mpr hba
  rw [roundHalfEven_eq]
  generalize hq : a / b = q at *
  generalize hr : a % b = r at *
  obtain ⟨q', rfl⟩ : ∃ q', q = q' + 1 := ⟨q - 1, by omega⟩
  obtain ⟨b', rfl⟩ : ∃ b', b = b' + 2 := ⟨b - 2, by omega⟩
  split_ifs <;> (ring_nf at hdm ⊢; omega)

/-- When `q0 * b ≤ a ≤ (q0 + 1) * b`, the rounded chunk is `q0` or
`q0 + 1` and the remainder stays within the same band for `b - 1`
chunks. -/
theorem roundHalfEven_balanced (a b q0 : Nat) (hb : 0 < b)
    (h1 : q0 * b ≤ a) (h2 : a ≤ (q0 + 1) * b) :
    (roundHalfEven a b = q0 ∨ roundHalfEven a b = q0 + 1)
    ∧ q0 * (b - 1) ≤ a - roundHalfEven a b
    ∧ a - roundHalfEven a b ≤ (q0 + 1) * (b - 1) := by
  have hdm := Nat.div_add_mod a b
  have hmlt : a % b < b := Nat.mod_lt _ hb
  have hge : q0 ≤ a / b := by
    rw [← Nat.mul_div_cancel q0 hb]
    exact Nat.div_le_div_right h1
  have hle : a / b ≤ q0 + 1 := by
    rw [← Nat.mul_div_cancel (q0 + 1) hb]
    exact Nat.div_le_div_right h2
  have e0 : q0 * b = q0 * (b - 1) + q0 := by
    cases b with
    | zero => omega
    | succ b'' => simp only [Nat.succ_sub_one]; ring
  have e1 : (q0 + 1) * b = (q0 + 1) * (b - 1) + (q0 + 1) := by
    cases b with
    | zero => omega
    | succ b'' => simp only [Nat.succ_sub_one]; ring
  have e2 : (q0 + 1) * (b - 1) = q0 * (b - 1) + (b - 1) := by ring
  have ec : b * (a / b) = (a / b) * b := Nat.mul_comm _ _
  rcases Nat.lt_or_ge (a / b) (q0 + 1) with hqlt | hqge
  · have hq : a / b = q0 := by omega
    rw [roundHalfEven_eq, hq]
    rw [hq] at hdm
    have ec0 : b * q0 = q0 * b := Nat.mul_comm _ _
    split_ifs <;> omega
  · have hq : a / b = q0 + 1 := by omega
    have hba : b * (q0 + 1) ≤ a := by
      calc b * (q0 + 1) = b * (a / b) := by rw [hq]
      _ ≤ a := Nat.mul_div_le a b
    have ec1 : b * (q0 + 1) = (q0 + 1) * b := Nat.mul_comm _ _
    have ha : a = (q0 + 1) * b := by omega
    have hr : a % b = 0 := by
      rw [ha]
      exact Nat.mul_mod_left _ _
    rw [roundHalfEven_eq, hq, hr]
    have h20 : 2 * 0 < b := by omega
    rw [if_pos h20]
    omega

/-- Invariant of the `chunk_indices` loop: from any positive remaining
length and chunk count, the loop succeeds and yields a nonempty,
contiguous, in-bounds chain of pairs whose half-open ranges concatenate
to exactly the remaining range, one pair per remaining chunk (clamped by
the length). -/
theorem chunkIndicesExactAux_spec :
    ∀ num_chunks start length : Nat, 1 ≤ num_chunks → 1 ≤ length →
      ∃ ps, chunkIndicesExactAux start length num_chunks = some ps ∧
        ps ≠ [] ∧
        (∀ q ∈ ps.head?, q.1 = start) ∧
        (∀ p ∈ ps, p.1 ≤ p.2 ∧ p.2 ≤ start + length) ∧
        List.Chain' (fun p q => p.2 = q.1) ps ∧
        (ps.map (fun p => List.range' p.1 (p.2 - p.1))).flatten
          = List.range' start length ∧
        ps.length = min num_chunks length := by
  intro num_chunks
  induction num_chunks using Nat.strong_induction_on with
  | _ nc ih =>
    intro start length h1 hl
    rcases Nat.lt_or_ge (min nc length) 2 with hsmall | hbig
    · have hmin : min nc length = 1 := by omega
      rw [chunkIndicesExactAux_step start length nc (by omega) (by omega)]
      simp only [hmin, roundHalfEven_one, Nat.sub_self, chunkIndicesExactAux_zero]
      refine ⟨[(start, start + length)], rfl, by simp, by simp, ?_,
        List.chain'_singleton _, ?_, by simp [hmin]⟩
      · intro p hp
        simp only [List.mem_singleton] at hp
        subst hp
        exact ⟨by omega, le_refl _⟩
      · simp only [List.map_cons, List.map_nil, List.flatten_cons,
          List.flatten_nil, List.append_nil]
        congr 1
        omega
    · have hble : min nc length ≤ length := Nat.min_le_right _ _
      have hcb := roundHalfEven_chunks_bound length (min nc length) hbig hble
      have hcpos := roundHalfEven_pos length (min nc length) (by omega) hble
      set c := roundHalfEven length (min nc length) with hcdef
      obtain ⟨ps', hps', hne', hhead', hbnd', hchain', hjoin', hlen'⟩ :=
        ih (min nc length - 1) (by omega) (start + c) (length - c)
          (by omega) (by omega)
      rw [chunkIndicesExactAux_step start length nc (by omega) (by omega), ← hcdef,
        hps']
      refine ⟨(start, start + c) :: ps', rfl, by simp, by simp, ?_, ?_, ?_, ?_⟩
      · intro p hp
        rcases List.mem_cons.mp hp with rfl | hp
        · exact ⟨by omega, by omega⟩
        · have := hbnd' p hp
          exact ⟨this.1, by omega⟩
      · rw [List.chain'_cons']
        exact ⟨fun y hy => (hhead' y hy).symm, hchain'⟩
      · simp only [List.map_cons, List.flatten_cons]
        rw [hjoin']
        have hcc : start + c - start = c := by omega
        rw [hcc, List.range'_append_1]
        congr 1
        omega
      · simp only [List.length_cons, hlen']
        omega

/-- Invariant of the `chunk_indices` loop when the remaining length stays
between `q0` and `q0 + 1` times the remaining chunk count: every yielded
chunk has size `q0` or `q0 + 1`. -/
theorem chunkIndicesExactAux_sizes :
    ∀ num_chunks start length q0 : Nat, 1 ≤ num_chunks → 1 ≤ q0 →
      q0 * num_chunks ≤ length → length ≤ (q0 + 1) * num_chunks →
      ∃ ps, chunkIndicesExactAux start length num_chunks = some ps ∧
        ∀ p ∈ ps, p.2 - p.1 = q0 ∨ p.2 - p.1 = q0 + 1 := by
  intro num_chunks
  induction num_chunks using Nat.strong_induction_on with
  | _ nc ih =>
    intro start length q0 h1 hq0 hlo hhi
    have hncle : nc ≤ length := by
      calc nc = 1 * nc := (Nat.one_mul nc).symm
      _ ≤ q0 * nc := Nat.mul_le_mul_right nc hq0
      _ ≤ length := hlo
    have hl : 1 ≤ length := by omega
    have hmin : min nc length = nc := Nat.min_eq_left hncle
    rcases Nat.lt_or_ge nc 2 with hsmall | hbig
    · have hnc1 : nc = 1 := by omega
      subst hnc1
      rw [chunkIndicesExactAux_step start length 1 (by omega) (by omega)]
      simp only [hmin, roundHalfEven_one, Nat.sub_self, chunkIndicesExactAux_zero]
      refine ⟨[(start, start + length)], rfl, ?_⟩
      intro p hp
      simp only [List.mem_singleton] at hp
      subst hp
      simp only [Nat.add_sub_cancel_left]
      omega
    · have hbal := roundHalfEven_balanced length nc q0 (by omega) hlo hhi
      have hcb := roundHalfEven_chunks_bound length nc hbig hncle
      have hlo' : q0 * (nc - 1) ≤ length - roundHalfEven length nc := by
        have e0 : q0 * (nc - 1) = q0 * nc - q0 := by
          cases nc with
          | zero => omega
          | succ n => simp only [Nat.succ_sub_one]; rw [Nat.mul_succ]; omega
        have := hbal.2.1
        omega
      have hhi' : length - roundHalfEven length nc ≤ (q0 + 1) * (nc - 1) := by
        have e1 : (q0 + 1) * (nc - 1) = (q0 + 1) * nc - (q0 + 1) := by
          cases nc with
          | zero => omega
          | succ n => simp only [Nat.succ_sub_one]; rw [Nat.mul_succ]; omega
        have := hbal.2.2
        omega
      obtain ⟨ps', hps', hsz'⟩ :=
        ih (nc - 1) (by omega) (start + roundHalfEven length nc)
          (length - roundHalfEven length nc) q0 (by omega) hq0 hlo' hhi'
      rw [chunkIndicesExactAux_step start length nc (by omega) (by omega), hmin,
        hps']
      refine ⟨(start, start + roundHalfEven length nc) :: ps', rfl, ?_⟩
      intro p hp
      rcases List.mem_cons.mp hp with rfl | hp
      · simp only [Nat.add_sub_cancel_left]
        exact hbal.1
      · exact hsz' p hp

/-- Unfolding the faithful `chunk_indices` loop when no chunks are
requested. -/
theorem chunkIndicesAux_zero (start length : Nat) :
    chunkIndicesAux start length 0 = .ok [] := by
  rw [chunkIndicesAux]
  simp

/-- Unfolding one iteration of the faithful `chunk_indices` loop. -/
theorem chunkIndicesAux_step (start length num_chunks : Nat)
    (h : num_chunks ≠ 0) :
    chunkIndicesAux start length num_chunks =
      match pyRoundDiv length (min num_chunks length) with
      | .error e => .error e
      | .ok c =>
        match chunkIndicesAux (start + c) (length - c)
            (min num_chunks length - 1) with
        | .ok rest => .ok ((start, start + c) :: rest)
        | .error e => .error e := by
  rw [chunkIndicesAux]
  simp [h]

/-- One productive iteration, with the rounded chunk and the recursive
result supplied as hypotheses (so that concrete runs of the loop rewrite
step by step without exposing a `match`). -/
theorem chunkIndicesAux_cons (start length num_chunks c : Nat)
    (rest : List (Nat × Nat)) (h : num_chunks ≠ 0)
    (hpy : pyRoundDiv length (min num_chunks length) = .ok c)
    (hrec : chunkIndicesAux (start + c) (length - c)
      (min num_chunks length - 1) = .ok rest) :
    chunkIndicesAux start length num_chunks
      = .ok ((start, start + c) :: rest) := by
  rw [chunkIndicesAux_step start length num_chunks h, hpy]
  show (match chunkIndicesAux (start + c) (length - c)
      (min num_chunks length - 1) with
    | Except.ok rest => Except.ok ((start, start + c) :: rest)
    | Except.error e => Except.error e) = Except.ok ((start, start + c) :: rest)
  rw [hrec]

/-- Unfolding `pyRoundDiv` in the regime `e ≥ 52`, where the double
nearest the quotient is already an integer; the binade exponent is
supplied as a hypothesis so that concrete instances evaluate without
expanding the recursion of `Nat.log2` under the `let` bindings. -/
theorem pyRoundDiv_big (a b e : Nat) (hb : b ≠ 0) (hba : ¬ a < b)
    (he : Nat.log2 (a / b) = e) (h52 : 52 ≤ e)
    (hov : roundHalfEven a (b * 2 ^ (e - 52)) * 2 ^ (e - 52) < 2 ^ 1024) :
    pyRoundDiv a b
      = .ok (roundHalfEven a (b * 2 ^ (e - 52)) * 2 ^ (e - 52)) := by
  rw [pyRoundDiv, if_neg hb, if_neg hba]
  simp only [he, if_pos h52, if_neg (Nat.not_le.mpr hov)]

/-- Characterisation of half-even rounding: twice the dividend either
lies strictly between the multiples-of-`b` brackets around twice the
rounded value, or ties at one of the half-way points with the rounded
value even. -/
theorem roundHalfEven_char (a b : Nat) (hb : 1 ≤ b) :
    (2 * (roundHalfEven a b * b) < 2 * a + b
      ∧ 2 * a < 2 * (roundHalfEven a b * b) + b)
    ∨ (2 * a = 2 * (roundHalfEven a b * b) + b ∧ roundHalfEven a b % 2 = 0)
    ∨ (2 * a + b = 2 * (roundHalfEven a b * b) ∧ roundHalfEven a b % 2 = 0) := by
  have hdm := Nat.div_add_mod a b
  have hmlt : a % b < b := Nat.mod_lt _ (by omega)
  rw [roundHalfEven_eq]
  generalize hq : a / b = q at *
  generalize hr : a % b = r at *
  split_ifs with h1 h2 h3
  · left
    have e : q * b = b * q := Nat.mul_comm _ _
    omega
  · left
    have e : (q + 1) * b = b * q + b := by ring
    omega
  · right; left
    have e : q * b = b * q := Nat.mul_comm _ _
    omega
  · right; right
    have e : (q + 1) * b = b * q + b := by ring
    omega

/-- A value strictly within half a step of `n` steps rounds to `n`. -/
theorem roundHalfEven_between (M n s : Nat) (hs : 1 ≤ s)
    (h1 : 2 * (n * 2 ^ (s - 1)) < M + 2 ^ (s - 1))
    (h2 : M < 2 * (n * 2 ^ (s - 1)) + 2 ^ (s - 1)) :
    roundHalfEven M (2 ^ s) = n := by
  have hB : 2 ^ s = 2 * 2 ^ (s - 1) := by
    cases s with
    | zero => omega
    | succ t => rw [Nat.succ_sub_one, pow_succ]; ring
  have hP : 0 < 2 ^ (s - 1) := Nat.pos_pow_of_pos _ (by omega)
  have hdm := Nat.div_add_mod M (2 ^ s)
  rw [roundHalfEven_eq]
  rcases Nat.lt_or_ge M (n * 2 ^ s) with hlt | hge
  · have hn1 : 1 ≤ n := by
      rcases Nat.eq_zero_or_pos n with rfl | h
      · omega
      · exact h
    have e4 : (n - 1) * 2 ^ s + 2 ^ s = n * 2 ^ s := by
      obtain ⟨m, rfl⟩ : ∃ m, n = m + 1 := ⟨n - 1, by omega⟩
      simp only [Nat.add_sub_cancel]
      ring
    have e2 : n * 2 ^ s = 2 * (n * 2 ^ (s - 1)) := by rw [hB]; ring
    have hq : M / 2 ^ s = n - 1 := by
      apply Nat.div_eq_of_lt_le
      · omega
      · have e : (n - 1 + 1) = n := by omega
        rw [e]
        exact hlt
    rw [hq] at hdm
    have e1 : 2 ^ s * (n - 1) = (n - 1) * 2 ^ s := Nat.mul_comm _ _
    have hrgt : 2 ^ s < 2 * (M % 2 ^ s) := by omega
    rw [if_neg (by omega), if_pos hrgt, hq]
    omega
  · have e2 : n * 2 ^ s = 2 * (n * 2 ^ (s - 1)) := by rw [hB]; ring
    have e5 : (n + 1) * 2 ^ s = n * 2 ^ s + 2 ^ s := by ring
    have hq : M / 2 ^ s = n := by
      apply Nat.div_eq_of_lt_le
      · exact hge
      · omega
    rw [hq] at hdm
    have e1 : 2 ^ s * n = n * 2 ^ s := Nat.mul_comm _ _
    have hrlt : 2 * (M % 2 ^ s) < 2 ^ s := by omega
    rw [if_pos hrlt, hq]

/-- An exact multiple rounds to its cofactor. -/
theorem roundHalfEven_mul (k b : Nat) (hb : 1 ≤ b) :
    roundHalfEven (k * b) b = k := by
  rw [roundHalfEven_eq]
  have h1 : k * b % b = 0 := Nat.mul_mod_left k b
  have h2 : k * b / b = k := Nat.mul_div_cancel k (by omega)
  rw [h1, h2, if_pos (by omega)]

/-- A tie half a step above an even `n` steps rounds down to `n`. -/
theorem roundHalfEven_tie_up (n s : Nat) (hs : 1 ≤ s) (hn : n % 2 = 0) :
    roundHalfEven ((2 * n + 1) * 2 ^ (s - 1)) (2 ^ s) = n := by
  have hB : 2 ^ s = 2 * 2 ^ (s - 1) := by
    cases s with
    | zero => omega
    | succ t => rw [Nat.succ_sub_one, pow_succ]; ring
  have hP : 0 < 2 ^ (s - 1) := Nat.pos_pow_of_pos _ (by omega)
  have e0 : (2 * n + 1) * 2 ^ (s - 1) = n * 2 ^ s + 2 ^ (s - 1) := by
    rw [hB]; ring
  have hq : (2 * n + 1) * 2 ^ (s - 1) / 2 ^ s = n := by
    apply Nat.div_eq_of_lt_le
    · omega
    · have e5 : (n + 1) * 2 ^ s = n * 2 ^ s + 2 ^ s := by ring
      omega
  have hr : (2 * n + 1) * 2 ^ (s - 1) % 2 ^ s = 2 ^ (s - 1) := by
    have hdm := Nat.div_add_mod ((2 * n + 1) * 2 ^ (s - 1)) (2 ^ s)
    rw [hq] at hdm
    have e1 : 2 ^ s * n = n * 2 ^ s := Nat.mul_comm _ _
    omega
  rw [roundHalfEven_eq, hr, hq, if_neg (by omega), if_neg (by omega), if_pos hn]

/-- A tie half a step below an even `n` steps rounds up to `n`. -/
theorem roundHalfEven_tie_down (n s : Nat) (hs : 1 ≤ s) (hn1 : 1 ≤ n)
    (hn : n % 2 = 0) :
    roundHalfEven ((2 * n - 1) * 2 ^ (s - 1)) (2 ^ s) = n := by
  have hB : 2 ^ s = 2 * 2 ^ (s - 1) := by
    cases s with
    | zero => omega
    | succ t => rw [Nat.succ_sub_one, pow_succ]; ring
  have hP : 0 < 2 ^ (s - 1) := Nat.pos_pow_of_pos _ (by omega)
  obtain ⟨m, rfl⟩ : ∃ m, n = m + 1 := ⟨n - 1, by omega⟩
  have em : 2 * (m + 1) - 1 = 2 * m + 1 := by omega
  rw [em]
  have e0 : (2 * m + 1) * 2 ^ (s - 1) = m * 2 ^ s + 2 ^ (s - 1) := by
    rw [hB]; ring
  have hq : (2 * m + 1) * 2 ^ (s - 1) / 2 ^ s = m := by
    apply Nat.div_eq_of_lt_le
    · omega
    · have e5 : (m + 1) * 2 ^ s = m * 2 ^ s + 2 ^ s := by ring
      omega
  have hr : (2 * m + 1) * 2 ^ (s - 1) % 2 ^ s = 2 ^ (s - 1) := by
    have hdm := Nat.div_add_mod ((2 * m + 1) * 2 ^ (s - 1)) (2 ^ s)
    rw [hq] at hdm
    have e1 : 2 ^ s * m = m * 2 ^ s := Nat.mul_comm _ _
    omega
  rw [roundHalfEven_eq, hr, hq, if_neg (by omega), if_neg (by omega),
    if_neg (by omega)]

/-- Double-rounding correctness: when `b < 2 ^ s`, first rounding
`a * 2 ^ s / b` to an integer (the conversion of `a / b` to a double with
step `2 ^ (-s)`) and then rounding that result by `2 ^ s` agrees with
directly rounding `a / b`.  This is why `pyRoundDiv` is exact below
`2 ^ 52`. -/
theorem roundHalfEven_double (a b s : Nat) (hb : 1 ≤ b) (hbs : b < 2 ^ s) :
    roundHalfEven (roundHalfEven (a * 2 ^ s) b) (2 ^ s) = roundHalfEven a b := by
  have hs : 1 ≤ s := by
    rcases Nat.eq_zero_or_pos s with rfl | h
    · norm_num at hbs; omega
    · exact h
  have hB : 2 ^ s = 2 * 2 ^ (s - 1) := by
    cases s with
    | zero => omega
    | succ t => rw [Nat.succ_sub_one, pow_succ]; ring
  set M := roundHalfEven (a * 2 ^ s) b with hM
  set n := roundHalfEven a b with hn
  have hMc := roundHalfEven_char (a * 2 ^ s) b hb
  rw [← hM] at hMc
  have hM1 : 2 * (M * b) ≤ 2 * (a * 2 ^ s) + b := by
    rcases hMc with ⟨h, _⟩ | ⟨h, _⟩ | ⟨h, _⟩ <;> omega
  have hM2 : 2 * (a * 2 ^ s) ≤ 2 * (M * b) + b := by
    rcases hMc with ⟨_, h⟩ | ⟨h, _⟩ | ⟨h, _⟩ <;> omega
  have hac := roundHalfEven_char a b hb
  rw [← hn] at hac
  rcases hac with ⟨h1, h2⟩ | ⟨htie, heven⟩ | ⟨htie, heven⟩
  · -- no tie: the double sits strictly within half a step of n steps
    apply roundHalfEven_between M n s hs
    · have l1 : 2 * (n * 2 ^ (s - 1)) * (2 * b)
          = 2 * (2 * (n * b) * 2 ^ (s - 1)) := by
        ring
      have l2 : (M + 2 ^ (s - 1)) * (2 * b) = 2 * (M * b) + b * 2 ^ s := by
        rw [hB]; ring
      have hx1 : (2 * (n * b) + 1) * 2 ^ s ≤ (2 * a + b) * 2 ^ s :=
        Nat.mul_le_mul_right _ (by omega)
      have ex1 : (2 * (n * b) + 1) * 2 ^ s
          = 2 * (2 * (n * b) * 2 ^ (s - 1)) + 2 ^ s := by
        rw [hB]; ring
      have ex2 : (2 * a + b) * 2 ^ s = 2 * (a * 2 ^ s) + b * 2 ^ s := by ring
      have key : 2 * (n * 2 ^ (s - 1)) * (2 * b)
          < (M + 2 ^ (s - 1)) * (2 * b) := by
        omega
      exact Nat.lt_of_mul_lt_mul_right key
    · have l1 : M * (2 * b) = 2 * (M * b) := by ring
      have l2 : (2 * (n * 2 ^ (s - 1)) + 2 ^ (s - 1)) * (2 * b)
          = 2 * (2 * (n * b) * 2 ^ (s - 1)) + b * 2 ^ s := by
        rw [hB]; ring
      have hx2 : (2 * a + 1) * 2 ^ s ≤ (2 * (n * b) + b) * 2 ^ s :=
        Nat.mul_le_mul_right _ (by omega)
      have ex3 : (2 * a + 1) * 2 ^ s = 2 * (a * 2 ^ s) + 2 ^ s := by ring
      have ex4 : (2 * (n * b) + b) * 2 ^ s
          = 2 * (2 * (n * b) * 2 ^ (s - 1)) + b * 2 ^ s := by
        rw [hB]; ring
      have key : M * (2 * b)
          < (2 * (n * 2 ^ (s - 1)) + 2 ^ (s - 1)) * (2 * b) := by
        omega
      exact Nat.lt_of_mul_lt_mul_right key
  · -- tie half a step above n: the scaled value is the same tie
    have hmul : (2 * a) * 2 ^ (s - 1) = (2 * (n * b) + b) * 2 ^ (s - 1) := by
      rw [htie]
    have ha2 : a * 2 ^ s = (2 * n + 1) * 2 ^ (s - 1) * b := by
      have e1 : a * 2 ^ s = (2 * a) * 2 ^ (s - 1) := by rw [hB]; ring
      have e2 : (2 * n + 1) * 2 ^ (s - 1) * b
          = (2 * (n * b) + b) * 2 ^ (s - 1) := by
        ring
      omega
    rw [hM, ha2, roundHalfEven_mul _ b hb]
    exact roundHalfEven_tie_up n s hs heven
  · -- tie half a step below n: the scaled value is the same tie
    have hn1 : 1 ≤ n := by
      rcases Nat.eq_zero_or_pos n with h0 | h
      · rw [h0] at htie
        simp only [Nat.zero_mul, Nat.mul_zero] at htie
        omega
      · exact h
    obtain ⟨m, hm⟩ : ∃ m, n = m + 1 := ⟨n - 1, by omega⟩
    have ha2 : a * 2 ^ s = (2 * n - 1) * 2 ^ (s - 1) * b := by
      have e1 : a * 2 ^ s = (2 * a) * 2 ^ (s - 1) := by rw [hB]; ring
      have hmul : (2 * a) * 2 ^ (s - 1) + b * 2 ^ (s - 1)
          = 2 * (n * b) * 2 ^ (s - 1) := by
        have := congrArg (fun x => x * 2 ^ (s - 1)) htie
        simpa [Nat.add_mul] using this
      have e2 : (2 * n - 1) * 2 ^ (s - 1) * b + b * 2 ^ (s - 1)
          = 2 * (n * b) * 2 ^ (s - 1) := by
        rw [hm]
        have em : 2 * (m + 1) - 1 = 2 * m + 1 := by omega
        rw [em]
        ring
      omega
    rw [hM, ha2, roundHalfEven_mul _ b hb]
    exact roundHalfEven_tie_down n s hs hn1 heven

/-- Below `2 ^ 52` every quotient arising in `chunk_indices` (the clamp
gives `b ≤ a`) has an exactly representable double, so the faithful
`round(a / b)` coincides with exact banker's rounding. -/
theorem pyRoundDiv_eq_exact (a b : Nat) (hb : 1 ≤ b) (hba : b ≤ a)
    (ha : a < 2 ^ 52) : pyRoundDiv a b = .ok (roundHalfEven a b) := by
  have hb0 : b ≠ 0 := by omega
  have hq1 : 1 ≤ a / b := (Nat.one_le_div_iff (by omega)).mpr hba
  have he : Nat.log2 (a / b) < 52 := by
    rw [Nat.log2_lt (by omega)]
    calc a / b ≤ a := Nat.div_le_self a b
    _ < 2 ^ 52 := ha
  have hpow : 2 ^ Nat.log2 (a / b) ≤ a / b := Nat.log2_self_le (by omega)
  have hble : 2 ^ Nat.log2 (a / b) * b ≤ a := by
    calc 2 ^ Nat.log2 (a / b) * b ≤ (a / b) * b := Nat.mul_le_mul_right _ hpow
    _ ≤ a := Nat.div_mul_le_self a b
  have hbs : b < 2 ^ (52 - Nat.log2 (a / b)) := by
    by_contra hc
    push_neg at hc
    have h2 : 2 ^ Nat.log2 (a / b) * 2 ^ (52 - Nat.log2 (a / b))
        ≤ 2 ^ Nat.log2 (a / b) * b := Nat.mul_le_mul_left _ hc
    rw [← pow_add] at h2
    have he2 : Nat.log2 (a / b) + (52 - Nat.log2 (a / b)) = 52 := by omega
    rw [he2] at h2
    omega
  rw [pyRoundDiv, if_neg hb0, if_neg (by omega)]
  simp only [if_neg (Nat.not_le.mpr he)]
  rw [roundHalfEven_double a b _ hb hbs]

/-- While the remaining length stays below `2 ^ 52`, the faithful loop
agrees with the exact-rounding reference loop. -/
theorem chunkIndicesAux_agrees :
    ∀ num_chunks start length : Nat, length < 2 ^ 52 →
      ∀ ps, chunkIndicesExactAux start length num_chunks = some ps →
        chunkIndicesAux start length num_chunks = .ok ps := by
  intro num_chunks
  induction num_chunks using Nat.strong_induction_on with
  | _ nc ih =>
    intro start length hlen ps hps
    rcases Nat.eq_zero_or_pos nc with rfl | hnc
    · rw [chunkIndicesExactAux_zero] at hps
      have hps' : ([] : List (Nat × Nat)) = ps := Option.some_injective _ hps
      rw [← hps']
      exact chunkIndicesAux_zero start length
    · rcases Nat.eq_zero_or_pos length with rfl | hl
      · rw [chunkIndicesExactAux_len_zero start nc (by omega)] at hps
        exact Option.noConfusion hps
      · have hmin1 : 1 ≤ min nc length := by omega
        have hminle : min nc length ≤ length := Nat.min_le_right _ _
        rw [chunkIndicesExactAux_step start length nc (by omega) (by omega)]
          at hps
        cases hrest : chunkIndicesExactAux
            (start + roundHalfEven length (min nc length))
            (length - roundHalfEven length (min nc length))
            (min nc length - 1) with
        | none =>
          rw [hrest] at hps
          exact Option.noConfusion hps
        | some rest =>
          rw [hrest] at hps
          have hps' : (start, start + roundHalfEven length (min nc length))
              :: rest = ps := Option.some_injective _ hps
          have hih : chunkIndicesAux
              (start + roundHalfEven length (min nc length))
              (length - roundHalfEven length (min nc length))
              (min nc length - 1) = .ok rest :=
            ih (min nc length - 1) (by omega)
              (start + roundHalfEven length (min nc length))
              (length - roundHalfEven length (min nc length)) (by omega)
              rest hrest
          rw [chunkIndicesAux_step start length nc (by omega),
            pyRoundDiv_eq_exact length (min nc length) hmin1 hminle hlen]
          show (match chunkIndicesAux
              (start + roundHalfEven length (min nc length))
              (length - roundHalfEven length (min nc length))
              (min nc length - 1) with
            | Except.ok rest => Except.ok
                ((start, start + roundHalfEven length (min nc length)) :: rest)
            | Except.error e => Except.error e) = Except.ok ps
          rw [hih, ← hps']

/-- A single-chunk iteration from any running start. -/
theorem chunkIndicesAux_one (start L c : Nat) (hL : 1 ≤ L)
    (hpy : pyRoundDiv L 1 = .ok c) :
    chunkIndicesAux start L 1 = .ok [(start, start + c)] := by
  refine chunkIndicesAux_cons start L 1 c [] (by norm_num) ?_ ?_
  · rw [Nat.min_eq_left hL]
    exact hpy
  · rw [Nat.min_eq_left hL]
    exact chunkIndicesAux_zero _ _

/-- With a single chunk the loop yields exactly one pair, stopping at the
rounded length. -/
theorem chunkIndices_one (L c : Nat) (hL : 1 ≤ L)
    (hpy : pyRoundDiv L 1 = .ok c) :
    chunkIndices L 1 = .ok [(0, c)] := by
  rw [chunkIndices, chunkIndicesAux_one 0 L c hL hpy]
  norm_num

/-- `round((2 ^ 53 + 1) / 1)`: the quotient is not representable as a
double and converts to the even neighbour `2 ^ 53`. -/
theorem pyRoundDiv_pow53_tie : pyRoundDiv (2 ^ 53 + 1) 1 = .ok (2 ^ 53) := by
  have he : Nat.log2 ((2 ^ 53 + 1) / 1) = 53 := by norm_num [Nat.log2]
  rw [pyRoundDiv_big (2 ^ 53 + 1) 1 53 (by norm_num) (by norm_num) he
    (by norm_num) (by norm_num [roundHalfEven_eq])]
  norm_num [roundHalfEven_eq]

/-- `round((2 ^ 54 + 2) / 2)`: the quotient `2 ^ 53 + 1` converts to the
even double `2 ^ 53`. -/
theorem pyRoundDiv_pow54_tie : pyRoundDiv (2 ^ 54 + 2) 2 = .ok (2 ^ 53) := by
  have he : Nat.log2 ((2 ^ 54 + 2) / 2) = 53 := by norm_num [Nat.log2]
  rw [pyRoundDiv_big (2 ^ 54 + 2) 2 53 (by norm_num) (by norm_num) he
    (by norm_num) (by norm_num [roundHalfEven_eq])]
  norm_num [roundHalfEven_eq]

/-- `round((2 ^ 53 + 2) / 1)`: this quotient is an exactly representable
double (an even integer below `2 ^ 54`), so nothing is lost. -/
theorem pyRoundDiv_pow53_exact :
    pyRoundDiv (2 ^ 53 + 2) 1 = .ok (2 ^ 53 + 2) := by
  have he : Nat.log2 ((2 ^ 53 + 2) / 1) = 53 := by norm_num [Nat.log2]
  rw [pyRoundDiv_big (2 ^ 53 + 2) 1 53 (by norm_num) (by norm_num) he
    (by norm_num) (by norm_num [roundHalfEven_eq])]
  norm_num [roundHalfEven_eq]

/-- C3 (amended).  For every `length > 0` and `num_chunks > 0` with
`length < 2 ^ 52` (so that every float division in the loop is exact —
in particular for every candidate-space size the program's coordinator
can address with exact doubles), the pairs yielded by
`chunk_indices(length, num_chunks)` are contiguous (each pair's stop is
the next pair's start), every pair satisfies `start ≤ stop`, and the
half-open ranges `[start, stop)` concatenate to exactly `[0, length)` —
so they cover it with no gaps and no overlaps.  Without the bound the
claim is false: see the counterexample at `length = 2 ^ 53 + 1`. -/
theorem chunk_indices_partition (length num_chunks : Nat)
    (hl : 0 < length) (hn : 0 < num_chunks) (hsmall : length < 2 ^ 52) :
    ∃ ps, chunkIndices length num_chunks = .ok ps ∧
      (∀ p ∈ ps, p.1 ≤ p.2) ∧
      List.Chain' (fun p q => p.2 = q.1) ps ∧
      (ps.map (fun p => List.range' p.1 (p.2 - p.1))).flatten
        = List.range length := by
  obtain ⟨ps, h, _, _, hbnd, hchain, hflat, _⟩ :=
    chunkIndicesExactAux_spec num_chunks 0 length hn hl
  refine ⟨ps, ?_, fun p hp => (hbnd p hp).1, hchain, ?_⟩
  · rw [chunkIndices]
    exact chunkIndicesAux_agrees num_chunks 0 length hsmall ps h
  · rw [hflat, List.range_eq_range']

/-- Witness for C3 (amended) at `length = 5`, `num_chunks = 2`. -/
theorem chunk_indices_partition_witness :
    (0 < 5 ∧ 0 < 2 ∧ 5 < 2 ^ 52)
    ∧ ∃ ps, chunkIndices 5 2 = .ok ps ∧
      (∀ p ∈ ps, p.1 ≤ p.2) ∧
      List.Chain' (fun p q => p.2 = q.1) ps ∧
      (ps.map (fun p => List.range' p.1 (p.2 - p.1))).flatten
        = List.range 5 :=
  ⟨⟨by decide, by decide, by decide⟩,
    chunk_indices_partition 5 2 (by decide) (by decide) (by decide)⟩

/-- Counterexample to C3 as stated (no bound on `length`): at
`length = 2 ^ 53 + 1`, `num_chunks = 1` CPython computes
`round(length / 1) = 2 ^ 53` (the quotient is converted to the nearest
even double), so the loop yields the single pair `(0, 2 ^ 53)`, whose
half-open range has `2 ^ 53` elements and therefore cannot cover
`[0, 2 ^ 53 + 1)`: index `2 ^ 53` is left out. -/
theorem chunk_indices_partition_counterexample :
    chunkIndices (2 ^ 53 + 1) 1 = .ok [(0, 2 ^ 53)]
    ∧ ([((0 : Nat), (2 ^ 53 : Nat))].map
        (fun p => List.range' p.1 (p.2 - p.1))).flatten = List.range' 0 (2 ^ 53)
    ∧ (List.range' 0 (2 ^ 53)).length ≠ (List.range (2 ^ 53 + 1)).length := by
  refine ⟨?_, by simp, ?_⟩
  · exact chunkIndices_one (2 ^ 53 + 1) (2 ^ 53) (by norm_num) pyRoundDiv_pow53_tie
  · rw [List.length_range', List.length_range]
    omega

/-- C4 (amended).  For every `length > 0` and `num_chunks > 0` with
`num_chunks ≤ length` and `length < 2 ^ 52` (exact float regime), any two
chunks yielded by `chunk_indices(length, num_chunks)` have sizes
differing by at most 1.  Without the bound the claim is false: see the
counterexample at `length = 2 ^ 54 + 2`. -/
theorem chunk_indices_balanced (length num_chunks : Nat)
    (hn : 0 < num_chunks) (hnl : num_chunks ≤ length)
    (hsmall : length < 2 ^ 52) :
    ∃ ps, chunkIndices length num_chunks = .ok ps ∧
      ∀ p ∈ ps, ∀ q ∈ ps, p.2 - p.1 ≤ (q.2 - q.1) + 1 := by
  have hq0 : 1 ≤ length / num_chunks := (Nat.one_le_div_iff hn).mpr hnl
  have hlo : (length / num_chunks) * num_chunks ≤ length :=
    Nat.div_mul_le_self length num_chunks
  have hhi : length ≤ (length / num_chunks + 1) * num_chunks := by
    have hdm := Nat.div_add_mod length num_chunks
    have hmlt : length % num_chunks < num_chunks := Nat.mod_lt _ hn
    have e : (length / num_chunks + 1) * num_chunks
        = num_chunks * (length / num_chunks) + num_chunks := by ring
    omega
  obtain ⟨ps, h, hsz⟩ :=
    chunkIndicesExactAux_sizes num_chunks 0 length (length / num_chunks)
      hn hq0 hlo hhi
  refine ⟨ps, ?_, ?_⟩
  · rw [chunkIndices]
    exact chunkIndicesAux_agrees num_chunks 0 length hsmall ps h
  · intro p hp q hq
    rcases hsz p hp with h1 | h1 <;> rcases hsz q hq with h2 | h2 <;> omega

/-- Witness for C4 (amended) at `length = 26`, `num_chunks = 4`. -/
theorem chunk_indices_balanced_witness :
    (0 < 4 ∧ 4 ≤ 26 ∧ 26 < 2 ^ 52)
    ∧ ∃ ps, chunkIndices 26 4 = .ok ps ∧
      ∀ p ∈ ps, ∀ q ∈ ps, p.2 - p.1 ≤ (q.2 - q.1) + 1 :=
  ⟨⟨by decide, by decide, by decide⟩,
    chunk_indices_balanced 26 4 (by decide) (by decide) (by decide)⟩

/-- Counterexample to C4 as stated (no bound on `length`): at
`length = 2 ^ 54 + 2`, `num_chunks = 2` (with `num_chunks ≤ length`)
the first chunk is `round((2 ^ 54 + 2) / 2) = 2 ^ 53` (a tie rounded to
the even double) and the second is the exactly-representable remainder
`2 ^ 53 + 2`, so the two chunk sizes differ by 2. -/
theorem chunk_indices_balanced_counterexample :
    chunkIndices (2 ^ 54 + 2) 2 = .ok [(0, 2 ^ 53), (2 ^ 53, 2 ^ 54 + 2)]
    ∧ (0 < 2 ∧ (2 : Nat) ≤ 2 ^ 54 + 2)
    ∧ ¬ ((2 ^ 54 + 2 : Nat) - 2 ^ 53 ≤ (2 ^ 53 - 0) + 1) := by
  refine ⟨?_, ⟨by norm_num, by norm_num⟩, by norm_num⟩
  have hinner : chunkIndicesAux (0 + 2 ^ 53) (2 ^ 54 + 2 - 2 ^ 53)
      (min 2 (2 ^ 54 + 2) - 1) = .ok [(2 ^ 53, 2 ^ 54 + 2)] := by
    rw [show min 2 (2 ^ 54 + 2) - 1 = 1 from by norm_num,
      show (2 : Nat) ^ 54 + 2 - 2 ^ 53 = 2 ^ 53 + 2 from by norm_num,
      chunkIndicesAux_one (0 + 2 ^ 53) (2 ^ 53 + 2) (2 ^ 53 + 2) (by norm_num)
        pyRoundDiv_pow53_exact]
    norm_num
  have hpy : pyRoundDiv (2 ^ 54 + 2) (min 2 (2 ^ 54 + 2)) = .ok (2 ^ 53) := by
    rw [show min 2 (2 ^ 54 + 2) = 2 from by norm_num]
    exact pyRoundDiv_pow54_tie
  rw [chunkIndices, chunkIndicesAux_cons 0 (2 ^ 54 + 2) 2 (2 ^ 53)
    [(2 ^ 53, 2 ^ 54 + 2)] (by norm_num) hpy hinner]
  norm_num

/-! ## C5: a job finds the first matching candidate in its range -/

/-- When no candidate in the scanned index list matches, the scan returns
`None`. -/
theorem callAux_none (md5hex : List Char → List Char) (hv : List Char)
    (c : Combinations) :
    ∀ n start : Nat, start + n ≤ c.size →
      (∀ i, start ≤ i → i < start + n → md5hex (c.combString i) ≠ hv) →
      Job.callAux md5hex hv c (List.range' start n) = .ok none := by
  intro n
  induction n with
  | zero => intro start _ _; rfl
  | succ n ih =>
    intro start hle hno
    rw [List.range'_succ, Job.callAux, getitem_nat_ok c start (by omega)]
    show (if md5hex (c.combString start) = hv then Except.ok (some (c.combString start))
        else Job.callAux md5hex hv c (List.range' (start + 1) n)) = Except.ok none
    rw [if_neg (hno start (by omega) (by omega))]
    exact ih (start + 1) (by omega) (fun i h1 h2 => hno i (by omega) (by omega))

/-- When some candidate matches, the scan returns the candidate at the
least matching index. -/
theorem callAux_found (md5hex : List Char → List Char) (hv : List Char)
    (c : Combinations) :
    ∀ n start i : Nat, start + n ≤ c.size → start ≤ i → i < start + n →
      md5hex (c.combString i) = hv →
      (∀ l, start ≤ l → l < i → md5hex (c.combString l) ≠ hv) →
      Job.callAux md5hex hv c (List.range' start n)
        = .ok (some (c.combString i)) := by
  intro n
  induction n with
  | zero => intro start i _ _ h2 _ _; omega
  | succ n ih =>
    intro start i hle h1 h2 hmatch hleast
    rw [List.range'_succ, Job.callAux, getitem_nat_ok c start (by omega)]
    show (if md5hex (c.combString start) = hv then Except.ok (some (c.combString start))
        else Job.callAux md5hex hv c (List.range' (start + 1) n))
      = Except.ok (some (c.combString i))
    rcases Nat.eq_or_lt_of_le h1 with rfl | hlt
    · rw [if_pos hmatch]
    · rw [if_neg (hleast start (le_refl _) hlt)]
      exact ih (start + 1) i (by omega) (by omega) (by omega) hmatch
        (fun l hl1 hl2 => hleast l (by omega) hl2)

/-- C5.  For every `Job` with `start_index ≤ stop_index ≤ size` and any
target hash, calling the job returns the candidate at the least index in
`[start_index, stop_index)` whose hash equals the target, and returns
`None` when no index in the range matches.  The hash (`md5(...).encode`/
`hexdigest` composite) is an arbitrary black-box function `md5hex`. -/
theorem job_call_finds_least (md5hex : List Char → List Char)
    (hv : List Char) (c : Combinations) (start stop : Nat)
    (h1 : start ≤ stop) (h2 : stop ≤ c.size) :
    ((∀ i, start ≤ i → i < stop → md5hex (c.combString i) ≠ hv) →
      (Job.mk c start stop).call md5hex hv = .ok none)
    ∧ (∀ i, start ≤ i → i < stop → md5hex (c.combString i) = hv →
        (∀ l, start ≤ l → l < i → md5hex (c.combString l) ≠ hv) →
        (Job.mk c start stop).call md5hex hv = .ok (some (c.combString i))) := by
  have hs : start + (stop - start) = stop := by omega
  constructor
  · intro hno
    rw [Job.call]
    exact callAux_none md5hex hv c (stop - start) start (by omega)
      (fun i hi1 hi2 => hno i hi1 (by omega))
  · intro i hi1 hi2 hmatch hleast
    rw [Job.call]
    exact callAux_found md5hex hv c (stop - start) start i (by omega) hi1
      (by omega) hmatch hleast

/-- Witness for C5: a two-candidate range over `['a', 'b']` with the
identity as the stand-in hash and target `"b"`. -/
theorem job_call_finds_least_witness :
    (0 ≤ 2 ∧ 2 ≤ (Combinations.mk ['a', 'b'] 1).size)
    ∧ (((∀ i, 0 ≤ i → i < 2 →
          (fun s => s) ((Combinations.mk ['a', 'b'] 1).combString i) ≠ ['b']) →
        (Job.mk (Combinations.mk ['a', 'b'] 1) 0 2).call (fun s => s) ['b']
          = .ok none)
      ∧ (∀ i, 0 ≤ i → i < 2 →
          (fun s => s) ((Combinations.mk ['a', 'b'] 1).combString i) = ['b'] →
          (∀ l, 0 ≤ l → l < i →
            (fun s => s) ((Combinations.mk ['a', 'b'] 1).combString l) ≠ ['b']) →
          (Job.mk (Combinations.mk ['a', 'b'] 1) 0 2).call (fun s => s) ['b']
            = .ok (some ((Combinations.mk ['a', 'b'] 1).combString i)))) :=
  ⟨⟨by decide, by decide⟩,
    job_call_finds_least (fun s => s) ['b'] (Combinations.mk ['a', 'b'] 1) 0 2
      (by decide) (by decide)⟩

/-! ## C6: coordinator-created jobs stay in bounds -/

/-- `round(26 ^ 12 / 1)`: `26 ^ 12` is a multiple of `2 ^ 4` in the
binade of `2 ^ 56`, hence exactly representable. -/
theorem pyRoundDiv_pow26_12 : pyRoundDiv (26 ^ 12) 1 = .ok (26 ^ 12) := by
  have he : Nat.log2 (26 ^ 12 / 1) = 56 := by norm_num [Nat.log2]
  rw [pyRoundDiv_big (26 ^ 12) 1 56 (by norm_num) (by norm_num) he
    (by norm_num) (by norm_num [roundHalfEven_eq])]
  norm_num [roundHalfEven_eq]

/-- `round(26 ^ 13 / 1)`: exactly representable (a multiple of `2 ^ 9`
in the binade of `2 ^ 61`). -/
theorem pyRoundDiv_pow26_13 : pyRoundDiv (26 ^ 13) 1 = .ok (26 ^ 13) := by
  have he : Nat.log2 (26 ^ 13 / 1) = 61 := by norm_num [Nat.log2]
  rw [pyRoundDiv_big (26 ^ 13) 1 61 (by norm_num) (by norm_num) he
    (by norm_num) (by norm_num [roundHalfEven_eq])]
  norm_num [roundHalfEven_eq]

/-- `round(26 ^ 14 / 1)`: exactly representable (a multiple of `2 ^ 13`
in the binade of `2 ^ 65`). -/
theorem pyRoundDiv_pow26_14 : pyRoundDiv (26 ^ 14) 1 = .ok (26 ^ 14) := by
  have he : Nat.log2 (26 ^ 14 / 1) = 65 := by norm_num [Nat.log2]
  rw [pyRoundDiv_big (26 ^ 14) 1 65 (by norm_num) (by norm_num) he
    (by norm_num) (by norm_num [roundHalfEven_eq])]
  norm_num [roundHalfEven_eq]

/-- `round(26 ^ 15 / 1)`: `26 ^ 15` sits in the binade of `2 ^ 70`,
where doubles are `2 ^ 18` apart; it is `2 ^ 15` times an odd number and
rounds UP to `26 ^ 15 + 98304`, overshooting the true size. -/
theorem pyRoundDiv_pow26_15 :
    pyRoundDiv (26 ^ 15) 1 = .ok (26 ^ 15 + 98304) := by
  have he : Nat.log2 (26 ^ 15 / 1) = 70 := by norm_num [Nat.log2]
  rw [pyRoundDiv_big (26 ^ 15) 1 70 (by norm_num) (by norm_num) he
    (by norm_num) (by norm_num [roundHalfEven_eq])]
  norm_num [roundHalfEven_eq]

/-- The jobs `main` creates for one text length with a single worker:
one job spanning the rounded size. -/
theorem jobsForLength_one (t c : Nat)
    (hpy : chunkIndices (26 ^ t) 1 = .ok [(0, c)]) :
    jobsForLength t 1 = .ok [Job.mk (Combinations.mk asciiLowercase t) 0 c] := by
  have hsz : (Combinations.mk asciiLowercase t).size = 26 ^ t := by
    show asciiLowercase.length ^ t = 26 ^ t
    rw [show asciiLowercase.length = 26 from by decide]
  rw [jobsForLength, hsz, hpy]
  rfl

/-- One step of the coordinator's fold over text lengths. -/
theorem mainJobsAux_cons (nw tl : Nat) (rest : List Nat) (a b : List Job)
    (h1 : jobsForLength tl nw = .ok a) (h2 : mainJobsAux nw rest = .ok b) :
    mainJobsAux nw (tl :: rest) = .ok (a ++ b) := by
  simp only [mainJobsAux]
  rw [h1, h2]

/-- Every job the coordinator creates for one text length up to 11 is in
bounds: its range is ordered and stops at or before the candidate-space
size (`26 ^ 11 < 2 ^ 52`, so the float divisions are exact). -/
theorem jobsForLength_safe (tl nw : Nat) (htl : tl ≤ 11) :
    ∃ js, jobsForLength tl nw = .ok js ∧
      ∀ j ∈ js, j.combinations = Combinations.mk asciiLowercase tl ∧
        j.start_index ≤ j.stop_index ∧
        j.stop_index ≤ (Combinations.mk asciiLowercase tl).size := by
  have hsize : 1 ≤ (Combinations.mk asciiLowercase tl).size := by
    show 0 < asciiLowercase.length ^ tl
    exact Nat.pos_pow_of_pos tl (by decide)
  have hsmall : (Combinations.mk asciiLowercase tl).size < 2 ^ 52 := by
    show asciiLowercase.length ^ tl < 2 ^ 52
    rw [show asciiLowercase.length = 26 from by decide]
    calc 26 ^ tl ≤ 26 ^ 11 := Nat.pow_le_pow_right (by norm_num) htl
    _ < 2 ^ 52 := by norm_num
  rcases Nat.eq_zero_or_pos nw with rfl | hnw
  · refine ⟨[], ?_, by simp⟩
    rw [jobsForLength, chunkIndices, chunkIndicesAux_zero]
    rfl
  · obtain ⟨ps, hps, _, _, hbnd, _, _, _⟩ :=
      chunkIndicesExactAux_spec nw 0 (Combinations.mk asciiLowercase tl).size
        hnw hsize
    have hok := chunkIndicesAux_agrees nw 0
      (Combinations.mk asciiLowercase tl).size hsmall ps hps
    refine ⟨ps.map (fun p => Job.mk ⟨asciiLowercase, tl⟩ p.1 p.2), ?_, ?_⟩
    · rw [jobsForLength, chunkIndices, hok]
      rfl
    · intro j hj
      simp only [List.mem_map] at hj
      obtain ⟨p, hp, rfl⟩ := hj
      have hb := hbnd p hp
      exact ⟨rfl, hb.1, by simpa using hb.2⟩

/-- The fold over text lengths succeeds and preserves the bounds as long
as every length stays at most 11. -/
theorem mainJobsAux_safe (nw : Nat) :
    ∀ ls : List Nat, (∀ t ∈ ls, t ≤ 11) →
      ∃ jobs, mainJobsAux nw ls = .ok jobs ∧
        ∀ j ∈ jobs, j.start_index ≤ j.stop_index ∧
          j.stop_index ≤ j.combinations.size := by
  intro ls
  induction ls with
  | nil => exact fun _ => ⟨[], rfl, by simp⟩
  | cons tl rest ih =>
    intro hall
    obtain ⟨jobs, hjobs, hbnd⟩ := ih fun t ht => hall t (List.mem_cons_of_mem _ ht)
    obtain ⟨js, hjs, hjbnd⟩ :=
      jobsForLength_safe tl nw (hall tl (List.mem_cons_self _ _))
    refine ⟨js ++ jobs, mainJobsAux_cons nw tl rest js jobs hjs hjobs, ?_⟩
    intro j hj
    rcases List.mem_append.mp hj with h | h
    · obtain ⟨hc, h1, h2⟩ := hjbnd j h
      refine ⟨h1, ?_⟩
      rw [hc]
      exact h2
    · exact hbnd j h

/-- C6 (amended).  For every `max_length ≤ 11` — the regime in which
every `round(len(combinations) / num_chunks)` in the partitioner is an
exact float computation — every job the coordinator enqueues (one per
chunk of each length up to the maximum) only addresses indices strictly
below the size of its candidate space, so evaluating it never reaches
the `IndexError` branch of `Combinations.__getitem__`.  Beyond the bound
the claim is false: see the counterexample at `max_length = 15`. -/
theorem main_jobs_within_bounds (max_length num_workers : Nat)
    (hml : max_length ≤ 11) :
    ∃ jobs, mainJobs max_length num_workers = .ok jobs ∧
      ∀ j ∈ jobs, ∀ i : Nat, j.start_index ≤ i → i < j.stop_index →
        i < j.combinations.size ∧
        ∃ s, j.combinations.getitem (i : Int) = .ok s := by
  have hall : ∀ t ∈ List.range' 1 max_length, t ≤ 11 := by
    intro t ht
    rw [List.mem_range'_1] at ht
    omega
  obtain ⟨jobs, hjobs, hbnd⟩ :=
    mainJobsAux_safe num_workers (List.range' 1 max_length) hall
  refine ⟨jobs, hjobs, ?_⟩
  intro j hj i hi1 hi2
  have hb := hbnd j hj
  have hlt : i < j.combinations.size := by omega
  exact ⟨hlt, j.combinations.combString i, getitem_nat_ok _ i hlt⟩

/-- Witness for C6 (amended) at `max_length = 2`, `num_workers = 3`. -/
theorem main_jobs_within_bounds_witness :
    2 ≤ 11
    ∧ ∃ jobs, mainJobs 2 3 = .ok jobs ∧
      ∀ j ∈ jobs, ∀ i : Nat, j.start_index ≤ i → i < j.stop_index →
        i < j.combinations.size ∧
        ∃ s, j.combinations.getitem (i : Int) = .ok s :=
  ⟨by decide, main_jobs_within_bounds 2 3 (by decide)⟩

/-- Counterexample to C6 as stated (no bound on `max_length`): run the
coordinator with `max_length = 15` and one worker.  At `text_length = 15`
it computes `round(26 ^ 15 / 1) = 26 ^ 15 + 98304` (the size is not
representable as a double and rounds up), so it enqueues a job whose
`stop_index` exceeds the candidate-space size; that job addresses the
index `26 ^ 15 + 98304 - 1`, on which `__getitem__` takes the
`IndexError` branch.  (A further divergence hides this on stock 64-bit
CPython: `len(combinations)` itself raises `OverflowError` already at
`text_length = 14`, because `26 ^ 14 > 2 ^ 63 - 1` no longer fits in
`Py_ssize_t` — either way the claimed safety fails past the bound.) -/
theorem main_jobs_within_bounds_counterexample :
    ∃ jobs, mainJobs 15 1 = .ok jobs ∧
      ∃ j ∈ jobs, j.start_index ≤ 26 ^ 15 + 98304 - 1 ∧
        26 ^ 15 + 98304 - 1 < j.stop_index ∧
        j.combinations.size ≤ 26 ^ 15 + 98304 - 1 ∧
        j.combinations.getitem ((26 ^ 15 + 98304 - 1 : Nat) : Int)
          = .error .indexError := by
  have hjsmall : ∀ t : Nat, t ≤ 11 → jobsForLength t 1
      = .ok [Job.mk (Combinations.mk asciiLowercase t) 0 (26 ^ t)] := by
    intro t ht
    have hp : 0 < 26 ^ t := Nat.pos_pow_of_pos t (by norm_num)
    have hpy : pyRoundDiv (26 ^ t) 1 = .ok (26 ^ t) := by
      have h := pyRoundDiv_eq_exact (26 ^ t) 1 (by omega) (by omega) ?_
      · rwa [roundHalfEven_one] at h
      · calc 26 ^ t ≤ 26 ^ 11 := Nat.pow_le_pow_right (by norm_num) ht
        _ < 2 ^ 52 := by norm_num
    exact jobsForLength_one t (26 ^ t)
      (chunkIndices_one (26 ^ t) (26 ^ t) (by omega) hpy)
  have hj12 : jobsForLength 12 1
      = .ok [Job.mk (Combinations.mk asciiLowercase 12) 0 (26 ^ 12)] :=
    jobsForLength_one 12 (26 ^ 12)
      (chunkIndices_one (26 ^ 12) (26 ^ 12) (by norm_num) pyRoundDiv_pow26_12)
  have hj13 : jobsForLength 13 1
      = .ok [Job.mk (Combinations.mk asciiLowercase 13) 0 (26 ^ 13)] :=
    jobsForLength_one 13 (26 ^ 13)
      (chunkIndices_one (26 ^ 13) (26 ^ 13) (by norm_num) pyRoundDiv_pow26_13)
  have hj14 : jobsForLength 14 1
      = .ok [Job.mk (Combinations.mk asciiLowercase 14) 0 (26 ^ 14)] :=
    jobsForLength_one 14 (26 ^ 14)
      (chunkIndices_one (26 ^ 14) (26 ^ 14) (by norm_num) pyRoundDiv_pow26_14)
  have hj15 : jobsForLength 15 1
      = .ok [Job.mk (Combinations.mk asciiLowercase 15) 0 (26 ^ 15 + 98304)] :=
    jobsForLength_one 15 (26 ^ 15 + 98304)
      (chunkIndices_one (26 ^ 15) (26 ^ 15 + 98304) (by norm_num)
        pyRoundDiv_pow26_15)
  have e0 : mainJobsAux 1 [] = .ok [] := rfl
  have e15 := mainJobsAux_cons 1 15 [] _ _ hj15 e0
  have e14 := mainJobsAux_cons 1 14 [15] _ _ hj14 e15
  have e13 := mainJobsAux_cons 1 13 [14, 15] _ _ hj13 e14
  have e12 := mainJobsAux_cons 1 12 [13, 14, 15] _ _ hj12 e13
  have e11 := mainJobsAux_cons 1 11 [12, 13, 14, 15] _ _
    (hjsmall 11 (by norm_num)) e12
  have e10 := mainJobsAux_cons 1 10 [11, 12, 13, 14, 15] _ _
    (hjsmall 10 (by norm_num)) e11
  have e9 := mainJobsAux_cons 1 9 [10, 11, 12, 13, 14, 15] _ _
    (hjsmall 9 (by norm_num)) e10
  have e8 := mainJobsAux_cons 1 8 [9, 10, 11, 12, 13, 14, 15] _ _
    (hjsmall 8 (by norm_num)) e9
  have e7 := mainJobsAux_cons 1 7 [8, 9, 10, 11, 12, 13, 14, 15] _ _
    (hjsmall 7 (by norm_num)) e8
  have e6 := mainJobsAux_cons 1 6 [7, 8, 9, 10, 11, 12, 13, 14, 15] _ _
    (hjsmall 6 (by norm_num)) e7
  have e5 := mainJobsAux_cons 1 5 [6, 7, 8, 9, 10, 11, 12, 13, 14, 15] _ _
    (hjsmall 5 (by norm_num)) e6
  have e4 := mainJobsAux_cons 1 4 [5, 6, 7, 8, 9, 10, 11, 12, 13, 14, 15] _ _
    (hjsmall 4 (by norm_num)) e5
  have e3 := mainJobsAux_cons 1 3
    [4, 5, 6, 7, 8, 9, 10, 11, 12, 13, 14, 15] _ _ (hjsmall 3 (by norm_num)) e4
  have e2 := mainJobsAux_cons 1 2
    [3, 4, 5, 6, 7, 8, 9, 10, 11, 12, 13, 14, 15] _ _
    (hjsmall 2 (by norm_num)) e3
  have e1 := mainJobsAux_cons 1 1
    [2, 3, 4, 5, 6, 7, 8, 9, 10, 11, 12, 13, 14, 15] _ _
    (hjsmall 1 (by norm_num)) e2
  refine ⟨[Job.mk (Combinations.mk asciiLowercase 1) 0 (26 ^ 1),
    Job.mk (Combinations.mk asciiLowercase 2) 0 (26 ^ 2),
    Job.mk (Combinations.mk asciiLowercase 3) 0 (26 ^ 3),
    Job.mk (Combinations.mk asciiLowercase 4) 0 (26 ^ 4),
    Job.mk (Combinations.mk asciiLowercase 5) 0 (26 ^ 5),
    Job.mk (Combinations.mk asciiLowercase 6) 0 (26 ^ 6),
    Job.mk (Combinations.mk asciiLowercase 7) 0 (26 ^ 7),
    Job.mk (Combinations.mk asciiLowercase 8) 0 (26 ^ 8),
    Job.mk (Combinations.mk asciiLowercase 9) 0 (26 ^ 9),
    Job.mk (Combinations.mk asciiLowercase 10) 0 (26 ^ 10),
    Job.mk (Combinations.mk asciiLowercase 11) 0 (26 ^ 11),
    Job.mk (Combinations.mk asciiLowercase 12) 0 (26 ^ 12),
    Job.mk (Combinations.mk asciiLowercase 13) 0 (26 ^ 13),
    Job.mk (Combinations.mk asciiLowercase 14) 0 (26 ^ 14),
    Job.mk (Combinations.mk asciiLowercase 15) 0 (26 ^ 15 + 98304)], ?_, ?_⟩
  · rw [mainJobs, show List.range' 1 15
      = [1, 2, 3, 4, 5, 6, 7, 8, 9, 10, 11, 12, 13, 14, 15] from by decide]
    simpa only [List.cons_append, List.nil_append, List.append_nil] using e1
  · refine ⟨Job.mk (Combinations.mk asciiLowercase 15) 0 (26 ^ 15 + 98304),
      ?_, Nat.zero_le _, by norm_num, ?_, ?_⟩
    · decide
    · show asciiLowercase.length ^ 15 ≤ 26 ^ 15 + 98304 - 1
      rw [show asciiLowercase.length = 26 from by decide]
      norm_num
    · decide

/-! ## C7: shutdown propagation through the poison pill -/

/-- No more jobs sit ahead of the first pill than the channel holds. -/
theorem jobsBeforePill_le (l : List Item) : jobsBeforePill l ≤ l.length := by
  induction l with
  | nil => simp [jobsBeforePill]
  | cons it rest ih =>
    cases it <;> simp [jobsBeforePill] <;> omega

/-- A worker observed as running contributes to the running count. -/
theorem numRunning_pos (ws : List WStatus) (w : Nat)
    (h : ws.getD w .stopped = .running) : 1 ≤ numRunning ws := by
  induction ws generalizing w with
  | nil =>
    rw [List.getD_nil] at h
    exact absurd h (by decide)
  | cons x xs ih =>
    cases w with
    | zero =>
      rw [List.getD_cons_zero] at h
      subst h
      simp [numRunning]
    | succ w' =>
      rw [List.getD_cons_succ] at h
      have := ih w' h
      cases x <;> simp [numRunning] <;> omega

/-- Stopping a running worker lowers the running count by exactly one. -/
theorem numRunning_set_stopped (ws : List WStatus) (w : Nat)
    (h : ws.getD w .stopped = .running) :
    numRunning (ws.set w .stopped) + 1 = numRunning ws := by
  induction ws generalizing w with
  | nil =>
    rw [List.getD_nil] at h
    exact absurd h (by decide)
  | cons x xs ih =>
    cases w with
    | zero =>
      rw [List.getD_cons_zero] at h
      subst h
      simp [List.set, numRunning]
    | succ w' =>
      rw [List.getD_cons_succ] at h
      have := ih w' h
      cases x <;> simp [List.set, numRunning] <;> omega

/-- Exhaustive characterization of a worker step: the worker must be
running, and it either consumes the pill (re-enqueueing it and stopping),
dies on a job exception, stops after publishing a truthy plaintext, or
consumes a non-matching job and keeps running. -/
theorem workerStep_cases (md5hex : List Char → List Char) (hv : List Char)
    (s : SysState) (w : Nat) (s' : SysState)
    (h : workerStep md5hex hv s w = some s') :
    s.workers.getD w .stopped = .running ∧
    ((∃ rest, s.queue_in = Item.pill :: rest ∧
        s' = ⟨rest ++ [Item.pill], s.queue_out, s.workers.set w .stopped⟩)
     ∨ (∃ j rest, s.queue_in = Item.job j :: rest ∧
         ((∃ e, j.call md5hex hv = .error e ∧
             s' = ⟨rest, s.queue_out, s.workers.set w .stopped⟩)
          ∨ (∃ r, j.call md5hex hv = .ok r ∧ truthy r = true ∧
             s' = ⟨rest, s.queue_out ++ [r.getD []], s.workers.set w .stopped⟩)
          ∨ (∃ r, j.call md5hex hv = .ok r ∧ truthy r = false ∧
             s' = ⟨rest, s.queue_out, s.workers⟩)))) := by
  obtain ⟨qin, qout, ws⟩ := s
  cases qin with
  | nil =>
    simp only [workerStep] at h
    by_cases hrun : ws.getD w .stopped = .running
    · rw [if_pos hrun] at h
      exact absurd h (by simp)
    · rw [if_neg hrun] at h
      exact absurd h (by simp)
  | cons it rest =>
    cases it with
    | pill =>
      simp only [workerStep] at h
      by_cases hrun : ws.getD w .stopped = .running
      · rw [if_pos hrun] at h
        exact ⟨hrun, Or.inl ⟨rest, rfl, (Option.some_injective _ h).symm⟩⟩
      · rw [if_neg hrun] at h
        exact absurd h (by simp)
    | job j =>
      simp only [workerStep] at h
      by_cases hrun : ws.getD w .stopped = .running
      · rw [if_pos hrun] at h
        refine ⟨hrun, Or.inr ⟨j, rest, rfl, ?_⟩⟩
        cases hc : j.call md5hex hv with
        | error e =>
          rw [hc] at h
          exact Or.inl ⟨e, rfl, (Option.some_injective _ h).symm⟩
        | ok r =>
          rw [hc] at h
          have h' : (if truthy r = true
              then some (SysState.mk rest (qout ++ [r.getD []])
                (ws.set w .stopped))
              else some (SysState.mk rest qout ws)) = some s' := h
          by_cases htr : truthy r = true
          · rw [if_pos htr] at h'
            exact Or.inr (Or.inl ⟨r, rfl, htr,
              (Option.some_injective _ h').symm⟩)
          · rw [if_neg htr] at h'
            exact Or.inr (Or.inr ⟨r, rfl, by simpa using htr,
              (Option.some_injective _ h').symm⟩)
      · rw [if_neg hrun] at h
        exact absurd h (by simp)

/-- Every worker step strictly decreases the system measure. -/
theorem workerStep_measure (md5hex : List Char → List Char) (hv : List Char)
    (s s' : SysState) (w : Nat)
    (h : workerStep md5hex hv s w = some s') :
    sysMeasure s' < sysMeasure s := by
  obtain ⟨hrun, hcase⟩ := workerStep_cases md5hex hv s w s' h
  have hR := numRunning_pos s.workers w hrun
  have hRset := numRunning_set_stopped s.workers w hrun
  rcases hcase with ⟨rest, hq, rfl⟩ | ⟨j, rest, hq, hsub⟩
  · have hJ' := jobsBeforePill_le (rest ++ [Item.pill])
    have hlen : (rest ++ [Item.pill]).length = rest.length + 1 := by simp
    rw [hlen] at hJ'
    simp only [sysMeasure, hq, jobsBeforePill, List.length_cons, hlen]
    have e : numRunning s.workers * (rest.length + 1 + 1)
        = numRunning (s.workers.set w .stopped) * (rest.length + 1 + 1)
          + (rest.length + 1 + 1) := by
      have hx : numRunning s.workers
          = numRunning (s.workers.set w .stopped) + 1 := by omega
      rw [hx]
      ring
    omega
  · have hJq : jobsBeforePill (Item.job j :: rest)
        = 1 + jobsBeforePill rest := rfl
    rcases hsub with ⟨e', hc, rfl⟩ | ⟨r, hc, htr, rfl⟩ | ⟨r, hc, htr, rfl⟩
    · simp only [sysMeasure, hq, List.length_cons, hJq]
      have e : numRunning s.workers * (rest.length + 1 + 1)
          = numRunning (s.workers.set w .stopped) * (rest.length + 1)
            + numRunning (s.workers.set w .stopped) + (rest.length + 1 + 1) := by
        have hx : numRunning s.workers
            = numRunning (s.workers.set w .stopped) + 1 := by omega
        rw [hx]
        ring
      omega
    · simp only [sysMeasure, hq, List.length_cons, hJq]
      have e : numRunning s.workers * (rest.length + 1 + 1)
          = numRunning (s.workers.set w .stopped) * (rest.length + 1)
            + numRunning (s.workers.set w .stopped) + (rest.length + 1 + 1) := by
        have hx : numRunning s.workers
            = numRunning (s.workers.set w .stopped) + 1 := by omega
        rw [hx]
        ring
      omega
    · simp only [sysMeasure, hq, List.length_cons, hJq]
      have e : numRunning s.workers * (rest.length + 1 + 1)
          = numRunning s.workers * (rest.length + 1)
            + numRunning s.workers := by
        ring
      omega

/-- The worker system admits no infinite run: the step relation is
well-founded (every state is accessible for the reversed relation). -/
theorem sysStep_acc (md5hex : List Char → List Char) (hv : List Char)
    (s : SysState) : Acc (fun t u => SysStep md5hex hv u t) s := by
  generalize hm : sysMeasure s = n
  induction n using Nat.strong_induction_on generalizing s with
  | _ n ih =>
    constructor
    intro t ht
    obtain ⟨w, hw⟩ := ht
    have := workerStep_measure md5hex hv s t w hw
    exact ih (sysMeasure t) (by omega) t rfl

/-- The pill, once on the channel, stays on the channel. -/
theorem workerStep_pill_invariant (md5hex : List Char → List Char)
    (hv : List Char) (s s' : SysState)
    (hp : PillIn s) (h : SysStep md5hex hv s s') : PillIn s' := by
  obtain ⟨w, hw⟩ := h
  obtain ⟨-, hcase⟩ := workerStep_cases md5hex hv s w s' hw
  rcases hcase with ⟨rest, hq, rfl⟩ | ⟨j, rest, hq, hsub⟩
  · show Item.pill ∈ rest ++ [Item.pill]
    simp
  · have hrest : Item.pill ∈ rest := by
      have := hp
      rw [PillIn, hq] at this
      rcases List.mem_cons.mp this with h0 | h0
      · exact absurd h0 (by simp)
      · exact h0
    rcases hsub with ⟨e', hc, rfl⟩ | ⟨r, hc, htr, rfl⟩ | ⟨r, hc, htr, rfl⟩ <;>
      exact hrest

/-- A running worker that dequeues the pill re-enqueues it at the back
and stops. -/
theorem workerStep_on_pill (md5hex : List Char → List Char) (hv : List Char)
    (s : SysState) (w : Nat) (rest : List Item)
    (hq : s.queue_in = Item.pill :: rest)
    (hrun : s.workers.getD w .stopped = .running) :
    workerStep md5hex hv s w
      = some ⟨rest ++ [Item.pill], s.queue_out, s.workers.set w .stopped⟩ := by
  rw [workerStep, if_pos hrun, hq]

/-- While the pill is on the channel, every running worker can take a
step (the blocking `get` never starves). -/
theorem workerStep_progress (md5hex : List Char → List Char) (hv : List Char)
    (s : SysState) (w : Nat) (hp : PillIn s)
    (hrun : s.workers.getD w .stopped = .running) :
    ∃ s', workerStep md5hex hv s w = some s' := by
  obtain ⟨qin, qout, ws⟩ := s
  cases qin with
  | nil => exact absurd hp (List.not_mem_nil _)
  | cons it rest =>
    cases it with
    | pill =>
      exact ⟨_, by simp only [workerStep]; rw [if_pos hrun]⟩
    | job j =>
      cases hc : j.call md5hex hv with
      | error e =>
        exact ⟨_, by simp only [workerStep]; rw [if_pos hrun, hc]⟩
      | ok r =>
        by_cases htr : truthy r = true
        · refine ⟨SysState.mk rest (qout ++ [r.getD []]) (ws.set w .stopped), ?_⟩
          simp only [workerStep]
          rw [if_pos hrun, hc]
          show (if truthy r = true
              then some (SysState.mk rest (qout ++ [r.getD []])
                (ws.set w .stopped))
              else some (SysState.mk rest qout ws))
            = some (SysState.mk rest (qout ++ [r.getD []]) (ws.set w .stopped))
          rw [if_pos htr]
        · refine ⟨SysState.mk rest qout ws, ?_⟩
          simp only [workerStep]
          rw [if_pos hrun, hc]
          show (if truthy r = true
              then some (SysState.mk rest (qout ++ [r.getD []])
                (ws.set w .stopped))
              else some (SysState.mk rest qout ws))
            = some (SysState.mk rest qout ws)
          rw [if_neg htr]

/-- Only a running worker can step. -/
theorem sysStep_needs_running (md5hex : List Char → List Char)
    (hv : List Char) (s s' : SysState) (h : SysStep md5hex hv s s') :
    1 ≤ numRunning s.workers := by
  obtain ⟨w, hw⟩ := h
  exact numRunning_pos s.workers w (workerStep_cases md5hex hv s w s' hw).1

/-- C7 (amended).  A worker that dequeues the shutdown sentinel
re-enqueues it before terminating; consequently the sentinel, once
enqueued, is never lost, the system admits no infinite run, and as long
as the sentinel is present every still-running worker can always take its
next step — so every worker eventually terminates, each one either by
observing the sentinel or by finding a match.  (A worker that finds a
match terminates without ever observing the sentinel, so the claim's
"every worker observes it" holds only for workers that do not exit on a
match.) -/
theorem worker_shutdown_propagation (md5hex : List Char → List Char)
    (hv : List Char) :
    (∀ s w rest, s.queue_in = Item.pill :: rest →
        s.workers.getD w .stopped = .running →
        workerStep md5hex hv s w
          = some ⟨rest ++ [Item.pill], s.queue_out, s.workers.set w .stopped⟩)
    ∧ (∀ s s', PillIn s → SysStep md5hex hv s s' → PillIn s')
    ∧ (∀ s, Acc (fun t u => SysStep md5hex hv u t) s)
    ∧ (∀ s w, PillIn s → s.workers.getD w .stopped = .running →
        ∃ s', workerStep md5hex hv s w = some s')
    ∧ (∀ s s', SysStep md5hex hv s s' → 1 ≤ numRunning s.workers) :=
  ⟨fun s w rest hq hrun => workerStep_on_pill md5hex hv s w rest hq hrun,
   fun s s' hp h => workerStep_pill_invariant md5hex hv s s' hp h,
   fun s => sysStep_acc md5hex hv s,
   fun s w hp hrun => workerStep_progress md5hex hv s w hp hrun,
   fun s s' h => sysStep_needs_running md5hex hv s s' h⟩

/-- C7 counterexample.  In a reachable configuration — one matching job
ahead of the sentinel, exactly as `main` enqueues them, with one worker —
the worker dequeues the job (not the sentinel), finds the match,
publishes it and terminates.  No worker is left running, so nothing is
ever dequeued again, yet the sentinel is still sitting on the channel:
this worker terminates without ever observing the sentinel, refuting
"every one of the N workers eventually observes it". -/
theorem worker_shutdown_counterexample :
    workerStep (fun s => s) ['a']
        (SysState.mk
          [Item.job (Job.mk (Combinations.mk ['a'] 1) 0 1), Item.pill]
          [] [WStatus.running]) 0
      = some (SysState.mk [Item.pill] [['a']] [WStatus.stopped])
    ∧ (SysState.mk
          [Item.job (Job.mk (Combinations.mk ['a'] 1) 0 1), Item.pill]
          [] [WStatus.running]).queue_in.head? ≠ some Item.pill
    ∧ numRunning [WStatus.stopped] = 0
    ∧ Item.pill ∈ [Item.pill] :=
  ⟨by decide, by decide, rfl, by decide⟩

/-- Witness for C7 (amended): the re-enqueue clause and the progress
clause applied at a one-worker state holding only the sentinel. -/
theorem worker_shutdown_propagation_witness :
    ((SysState.mk [Item.pill] [] [WStatus.running]).queue_in
        = Item.pill :: ([] : List Item)
      ∧ (SysState.mk [Item.pill] [] [WStatus.running]).workers.getD 0 .stopped
        = .running
      ∧ workerStep (fun s => s) ['a']
          (SysState.mk [Item.pill] [] [WStatus.running]) 0
        = some (SysState.mk ([] ++ [Item.pill]) []
            ([WStatus.running].set 0 .stopped)))
    ∧ (PillIn (SysState.mk [Item.pill] [] [WStatus.running])
      ∧ ∃ s', workerStep (fun s => s) ['a']
          (SysState.mk [Item.pill] [] [WStatus.running]) 0 = some s') := by
  refine ⟨⟨rfl, by decide, ?_⟩, ⟨List.mem_singleton_self _, ?_⟩⟩
  · exact (worker_shutdown_propagation (fun s => s) ['a']).1
      (SysState.mk [Item.pill] [] [WStatus.running]) 0 [] rfl (by decide)
  · exact (worker_shutdown_propagation (fun s => s) ['a']).2.2.2.1
      (SysState.mk [Item.pill] [] [WStatus.running]) 0
      (List.mem_singleton_self _) (by decide)

/-! ## C8/C10: Queue and Stack -/

/-- Enqueueing a sequence appends it, in order, at the back of the shared
deque. -/
theorem Queue.enqueueAll_elements {α : Type u} (l xs : List α) :
    Queue.enqueueAll (Queue.mk l) xs = Queue.mk (l ++ xs) := by
  induction xs generalizing l with
  | nil => simp [Queue.enqueueAll, List.foldl]
  | cons x xs ih =>
    have hstep : Queue.enqueueAll (Queue.mk l) (x :: xs)
        = Queue.enqueueAll (Queue.mk (l ++ [x])) xs := rfl
    rw [hstep, ih]
    simp

/-- C8.  `Queue` and `Stack` share the deque and its back-insertion
`enqueue`; they differ only in the removal end: after enqueueing `xs`
into an empty container, `Queue.dequeue` removes and returns the least
recently enqueued element (the front) and `Stack.dequeue` removes and
returns the most recently enqueued element (the back). -/
theorem queue_stack_removal_ends {α : Type u} (xs : List α) (h : xs ≠ []) :
    (Queue.enqueueAll (Queue.mk ([] : List α)) xs).elements = xs
    ∧ Queue.dequeue (Queue.enqueueAll (Queue.mk ([] : List α)) xs)
        = some (xs.head h, Queue.mk xs.tail)
    ∧ Stack.dequeue (Queue.enqueueAll (Queue.mk ([] : List α)) xs)
        = some (xs.getLast h, Queue.mk xs.dropLast) := by
  rw [Queue.enqueueAll_elements, List.nil_append]
  refine ⟨rfl, ?_, ?_⟩
  · cases xs with
    | nil => exact absurd rfl h
    | cons y t => rfl
  · rw [Stack.dequeue, List.getLast?_eq_getLast xs h]

/-- Witness for C8 at `xs = [1, 2, 3]`. -/
theorem queue_stack_removal_ends_witness :
    ([1, 2, 3] : List Nat) ≠ []
    ∧ ((Queue.enqueueAll (Queue.mk ([] : List Nat)) [1, 2, 3]).elements
        = [1, 2, 3]
      ∧ Queue.dequeue (Queue.enqueueAll (Queue.mk ([] : List Nat)) [1, 2, 3])
        = some (([1, 2, 3] : List Nat).head (by decide),
            Queue.mk ([1, 2, 3] : List Nat).tail)
      ∧ Stack.dequeue (Queue.enqueueAll (Queue.mk ([] : List Nat)) [1, 2, 3])
        = some (([1, 2, 3] : List Nat).getLast (by decide),
            Queue.mk ([1, 2, 3] : List Nat).dropLast)) :=
  ⟨by decide, queue_stack_removal_ends [1, 2, 3] (by decide)⟩

/-- Fully consuming the front-removing iterator yields the elements in
order and empties the container. -/
theorem Queue.queueIterListAux_drains {α : Type u} (l : List α) :
    Queue.iterListAux l = (l, Queue.mk []) := by
  induction l with
  | nil => rfl
  | cons x xs ih => simp [Queue.iterListAux, ih]

/-- Fully consuming the back-removing iterator yields the elements in
reverse and empties the container. -/
theorem Stack.stackIterListAux_drains {α : Type u} (l : List α) :
    Stack.iterListAux l.length l = (l.reverse, Queue.mk []) := by
  induction l using List.reverseRecOn with
  | nil => rfl
  | append_singleton l' a ih =>
    have hlen : (l' ++ [a]).length = l'.length + 1 := by simp
    rw [hlen]
    simp [Stack.iterListAux, List.getLast?_concat, List.dropLast_concat, ih]

/-- C10.  Iterating a `Queue` (or a `Stack`) is destructive: the yielded
elements are exactly the container's elements (in front-to-back order for
`Queue`, back-to-front for `Stack`), each removed by `dequeue`; after the
iteration the container's length is 0, and iterating the same container a
second time yields nothing. -/
theorem queue_stack_iteration_destructive {α : Type u} (q : Queue α) :
    (Queue.iterList q).1 = q.elements
    ∧ Queue.len (Queue.iterList q).2 = 0
    ∧ (Queue.iterList (Queue.iterList q).2).1 = []
    ∧ (Stack.iterList q).1 = q.elements.reverse
    ∧ Queue.len (Stack.iterList q).2 = 0
    ∧ (Stack.iterList (Stack.iterList q).2).1 = [] := by
  have hq : Queue.iterList q = (q.elements, Queue.mk []) := by
    rw [Queue.iterList, Queue.queueIterListAux_drains]
  have hs : Stack.iterList q = (q.elements.reverse, Queue.mk []) := by
    rw [Stack.iterList, Stack.stackIterListAux_drains]
  rw [hq, hs]
  exact ⟨rfl, rfl, rfl, rfl, rfl, rfl⟩
